import Mathlib

/-!
Verification of the discrete trajectory segment specification.

The repository ships only the test suite of `DiscreteTrajectorySegment`
(`physics/discrete_trajectory_segment_test.cpp`) together with headers of
collaborating components; the segment implementation itself
(`physics/discrete_trajectory_segment.hpp` and its body) is not part of the
source tree.  The data model and the operations below are therefore modelled
from the specification (sections 3, 4 and 7), and checked for consistency
against the behaviour pinned down by the shipped tests.

Scalars are modelled by `ℚ`: times are rational instants, positions and
velocities are rational 3-vectors.  A distance being bounded by a tolerance
`τ ≥ 0` is expressed by comparing the squared Euclidean norm with `τ ^ 2`,
which avoids square roots while stating the same bound.
-/

/-- Rational 3-vectors standing in for `Position` and `Velocity` values. -/
abbrev Vec3 : Type := ℚ × ℚ × ℚ

/-- Componentwise addition of 3-vectors. -/
def vadd (u v : Vec3) : Vec3 := (u.1 + v.1, u.2.1 + v.2.1, u.2.2 + v.2.2)

/-- Componentwise subtraction of 3-vectors. -/
def vsub (u v : Vec3) : Vec3 := (u.1 - v.1, u.2.1 - v.2.1, u.2.2 - v.2.2)

/-- Scalar multiple of a 3-vector. -/
def smul3 (a : ℚ) (v : Vec3) : Vec3 := (a * v.1, a * v.2.1, a * v.2.2)

/-- Squared Euclidean norm of a 3-vector. -/
def normSq (v : Vec3) : ℚ := v.1 ^ 2 + v.2.1 ^ 2 + v.2.2 ^ 2

/-- Modelled from the spec, section 3 (the `Sample` record of the missing
`DiscreteTrajectorySegment` implementation): an immutable
(time, position, velocity) triple. -/
structure Sample where
  time : ℚ
  position : Vec3
  velocity : Vec3
deriving DecidableEq, Repr

/-- Modelled from the spec, section 3: `DownsamplingParameters` of the missing
segment implementation, `{max_dense_intervals, tolerance}`. -/
structure DownsamplingParameters where
  max_dense_intervals : ℕ
  tolerance : ℚ
deriving DecidableEq, Repr

/-- Modelled from the spec, section 3: the `DownsamplingState` attached to a
segment when downsampling is active; `dense_samples` is the ordered window of
samples not yet considered for compaction. -/
structure DownsamplingState where
  parameters : DownsamplingParameters
  dense_samples : List Sample
deriving DecidableEq, Repr

/-- Modelled from the spec, section 7: the typed error kinds of the missing
segment implementation. -/
inductive SegmentError where
  | outOfOrder
  | outOfRange
  | emptySegment
  | alreadyConfigured
deriving DecidableEq, Repr

/-- Modelled from the spec, sections 2 and 3 (the missing
`DiscreteTrajectorySegment` class).  The Timeline is represented in two
pieces: `front` holds the samples already considered for compaction and
`dense_samples` (inside the optional `DownsamplingState`) holds the trailing
dense window; the spec invariant that the dense window is a contiguous suffix
of the Timeline holds by construction, the full Timeline being
`front ++ dense_samples`. -/
structure Segment where
  front : List Sample
  downsampling : Option DownsamplingState
deriving DecidableEq, Repr

/-- The dense window of a segment (empty when downsampling is not
configured). -/
def Segment.denseSamples (seg : Segment) : List Sample :=
  match seg.downsampling with
  | none => []
  | some ds => ds.dense_samples

/-- Modelled from the spec, section 3: the full ordered Timeline of a
segment. -/
def Segment.timeline (seg : Segment) : List Sample :=
  seg.front ++ seg.denseSamples

/-- Modelled from the spec, section 4.4 (the missing Hermite interpolator):
position of the cubic fit that matches position and velocity at both bounding
samples, evaluated at time `t`. -/
def hermitePosition (s0 s1 : Sample) (t : ℚ) : Vec3 :=
  let h := s1.time - s0.time
  let u := (t - s0.time) / h
  vadd
    (vadd (smul3 (2 * u ^ 3 - 3 * u ^ 2 + 1) s0.position)
          (smul3 ((u ^ 3 - 2 * u ^ 2 + u) * h) s0.velocity))
    (vadd (smul3 (-2 * u ^ 3 + 3 * u ^ 2) s1.position)
          (smul3 ((u ^ 3 - u ^ 2) * h) s1.velocity))

/-- Modelled from the spec, section 4.4: velocity (time derivative of the
cubic fit) evaluated at time `t`. -/
def hermiteVelocity (s0 s1 : Sample) (t : ℚ) : Vec3 :=
  let h := s1.time - s0.time
  let u := (t - s0.time) / h
  vadd
    (vadd (smul3 ((6 * u ^ 2 - 6 * u) / h) s0.position)
          (smul3 (3 * u ^ 2 - 4 * u + 1) s0.velocity))
    (vadd (smul3 ((-6 * u ^ 2 + 6 * u) / h) s1.position)
          (smul3 (3 * u ^ 2 - 2 * u) s1.velocity))

/-- The interior samples of a dense window: everything except the two
endpoint samples. -/
def interiorOf (l : List Sample) : List Sample := (l.drop 1).dropLast

/-- Modelled from the spec, section 4.3: the compaction check of the missing
downsampling engine.  A window is compactible exactly when the Hermite fit
through its two endpoint samples reconstructs the position of every interior
sample within the tolerance (the position error bound is the one checked; the
velocity error is only bounded transitively through the same fit). -/
def compactWindowCheck (p : DownsamplingParameters) (w : List Sample) : Bool :=
  match w.head?, w.getLast? with
  | some e0, some e1 =>
      (interiorOf w).all fun x =>
        decide (normSq (vsub (hermitePosition e0 e1 x.time) x.position) ≤ p.tolerance ^ 2)
  | _, _ => true

/-- Modelled from the spec, sections 4.1 and 4.3: the success path of
`Append`.  The new sample is added to the Timeline and to the dense window;
if this brings the dense window to exactly `max_dense_intervals + 1` samples,
compaction runs synchronously: on a passing check only the two endpoints of
the window survive, on a failing check every sample of the window is
retained, and in both cases the dense window is reset to the single trailing
endpoint sample. -/
def appendOk (seg : Segment) (s : Sample) : Segment :=
  match seg.downsampling with
  | none => { front := seg.front ++ [s], downsampling := none }
  | some ds =>
    let w := ds.dense_samples ++ [s]
    if w.length = ds.parameters.max_dense_intervals + 1 then
      if compactWindowCheck ds.parameters w then
        { front := seg.front ++ w.take 1,
          downsampling := some { parameters := ds.parameters, dense_samples := [s] } }
      else
        { front := seg.front ++ w.dropLast,
          downsampling := some { parameters := ds.parameters, dense_samples := [s] } }
    else
      { front := seg.front,
        downsampling := some { parameters := ds.parameters, dense_samples := w } }

/-- Modelled from the spec, section 4.1: `Append` fails with `OutOfOrderError`
when the new time is not strictly greater than the current last stored time
(in particular when a sample at exactly that time already exists); otherwise
it inserts the new sample as the new last element and runs the downsampling
engine. -/
def Segment.append (seg : Segment) (s : Sample) : Except SegmentError Segment :=
  match (Segment.timeline seg).getLast? with
  | some l =>
      if s.time ≤ l.time then Except.error SegmentError.outOfOrder
      else Except.ok (appendOk seg s)
  | none => Except.ok (appendOk seg s)

/-- The state reached by an `Append` call: the new state on success, the
unchanged prior state on failure (error atomicity). -/
def appendTotal (seg : Segment) (s : Sample) : Segment :=
  match seg.append s with
  | Except.ok seg' => seg'
  | Except.error _ => seg

/-- Modelled from the spec, section 4.2: `ForgetAfter t` removes every sample
whose time is greater than or equal to `t`, both from the Timeline and from
the dense window. -/
def Segment.forgetAfter (seg : Segment) (t : ℚ) : Segment :=
  { front := seg.front.filter fun s => decide (s.time < t),
    downsampling := seg.downsampling.map fun ds =>
      { ds with dense_samples := ds.dense_samples.filter fun s => decide (s.time < t) } }

/-- Modelled from the spec, section 4.2: `ForgetBefore t` removes every sample
whose time is strictly less than `t`. -/
def Segment.forgetBefore (seg : Segment) (t : ℚ) : Segment :=
  { front := seg.front.filter fun s => decide (t ≤ s.time),
    downsampling := seg.downsampling.map fun ds =>
      { ds with dense_samples := ds.dense_samples.filter fun s => decide (t ≤ s.time) } }

/-- Modelled from the spec, section 4.5: configuring downsampling; fails with
`AlreadyConfiguredError` on a conflicting reconfiguration.  When first
configured, the whole existing Timeline is the not-yet-considered dense
window. -/
def Segment.setDownsampling (seg : Segment) (p : DownsamplingParameters) :
    Except SegmentError Segment :=
  match seg.downsampling with
  | some ds =>
      if ds.parameters = p then Except.ok seg
      else Except.error SegmentError.alreadyConfigured
  | none =>
      Except.ok { front := [],
                  downsampling := some { parameters := p, dense_samples := seg.timeline } }

/-- Modelled from the spec, section 4.4: position evaluation over an ordered
timeline.  The bracketing pair of adjacent samples is located and the Hermite
fit through it is evaluated; outside the stored extent the result is
`OutOfRangeError`. -/
def evalPosAux : List Sample → ℚ → Except SegmentError Vec3
  | [], _ => Except.error SegmentError.outOfRange
  | [s], t =>
      if t = s.time then Except.ok s.position else Except.error SegmentError.outOfRange
  | s0 :: s1 :: rest, t =>
      if t < s0.time then Except.error SegmentError.outOfRange
      else if t ≤ s1.time then Except.ok (hermitePosition s0 s1 t)
      else evalPosAux (s1 :: rest) t

/-- Modelled from the spec, section 4.4: velocity evaluation over an ordered
timeline. -/
def evalVelAux : List Sample → ℚ → Except SegmentError Vec3
  | [], _ => Except.error SegmentError.outOfRange
  | [s], t =>
      if t = s.time then Except.ok s.velocity else Except.error SegmentError.outOfRange
  | s0 :: s1 :: rest, t =>
      if t < s0.time then Except.error SegmentError.outOfRange
      else if t ≤ s1.time then Except.ok (hermiteVelocity s0 s1 t)
      else evalVelAux (s1 :: rest) t

/-- Modelled from the spec, section 4.4: `EvaluatePosition`. -/
def Segment.evaluatePosition (seg : Segment) (t : ℚ) : Except SegmentError Vec3 :=
  evalPosAux seg.timeline t

/-- Modelled from the spec, section 4.4: `EvaluateVelocity`. -/
def Segment.evaluateVelocity (seg : Segment) (t : ℚ) : Except SegmentError Vec3 :=
  evalVelAux seg.timeline t

/-- The mutating operations of the segment interface. -/
inductive SegOp where
  | append (s : Sample)
  | forgetAfter (t : ℚ)
  | forgetBefore (t : ℚ)
deriving DecidableEq, Repr

/-- One mutation step; a failing `Append` leaves the segment unchanged. -/
def applySegOp (seg : Segment) : SegOp → Segment
  | SegOp.append s => appendTotal seg s
  | SegOp.forgetAfter t => seg.forgetAfter t
  | SegOp.forgetBefore t => seg.forgetBefore t

/-- Run a sequence of mutating operations. -/
def runOps (seg : Segment) (ops : List SegOp) : Segment :=
  ops.foldl applySegOp seg

/-- Run a sequence of `Append` calls. -/
def runAppends (seg : Segment) (ss : List Sample) : Segment :=
  ss.foldl appendTotal seg

/-- A freshly created empty segment with downsampling configured. -/
def configuredEmpty (p : DownsamplingParameters) : Segment :=
  { front := [], downsampling := some { parameters := p, dense_samples := [] } }

/-- A freshly created empty segment without downsampling. -/
def plainEmpty : Segment := { front := [], downsampling := none }

/-- Whether the `Append` of `s` onto `seg` either triggers no compaction or a
compaction whose check passes. -/
def stepPasses (seg : Segment) (s : Sample) : Bool :=
  match seg.downsampling with
  | none => true
  | some ds =>
    let w := ds.dense_samples ++ [s]
    if w.length = ds.parameters.max_dense_intervals + 1 then
      compactWindowCheck ds.parameters w
    else true

/-- Whether every compaction attempt during a run of `Append` calls passes its
check. -/
def allPass : Segment → List Sample → Bool
  | _, [] => true
  | seg, s :: rest => stepPasses seg s && allPass (appendOk seg s) rest

/-- Strictly increasing times along a list of samples. -/
abbrev sortedTimes (l : List Sample) : Prop :=
  l.Pairwise fun a b => a.time < b.time

/-- The last sample of `x :: rest`. -/
def lastOf (x : Sample) (rest : List Sample) : Sample :=
  rest.getLast?.getD x

/-- Sample `s` is covered by `tl`: some adjacent pair of samples of `tl`
brackets the time of `s` and the Hermite fit through that pair reconstructs
the position of `s` within squared tolerance `tolSq`. -/
def covered (tolSq : ℚ) (tl : List Sample) (s : Sample) : Prop :=
  ∃ l1 e0 e1 l2, tl = l1 ++ e0 :: e1 :: l2 ∧
    e0.time < s.time ∧ s.time < e1.time ∧
    normSq (vsub (hermitePosition e0 e1 s.time) s.position) ≤ tolSq

/-- The part of the Timeline that later operations can only extend, never
modify: everything already compacted plus the leading endpoint of the dense
window. -/
def stablePart (seg : Segment) : List Sample :=
  seg.front ++ seg.denseSamples.take 1

/-- A sample with all coordinates zero at time `t`, used for concrete
instances. -/
def zsmp (t : ℚ) : Sample := { time := t, position := (0, 0, 0), velocity := (0, 0, 0) }

/-- A concrete parameter set: dense windows of three samples, tolerance 1. -/
def pTwo : DownsamplingParameters := { max_dense_intervals := 2, tolerance := 1 }

/-- Parameter sanity: when downsampling is configured, `max_dense_intervals`
is at least one (the spec requires it to be greater than one). -/
def paramsOK (seg : Segment) : Prop :=
  ∀ ds, seg.downsampling = some ds → 1 ≤ ds.parameters.max_dense_intervals

/-- Downsampling is configured with the given parameter record. -/
def paramsAre (p : DownsamplingParameters) (seg : Segment) : Prop :=
  ∃ d, seg.downsampling = some (DownsamplingState.mk p d)

/-- The dense window never exceeds `max_dense_intervals` samples. -/
def denseBounded (seg : Segment) : Prop :=
  ∀ ds, seg.downsampling = some ds →
    ds.dense_samples.length ≤ ds.parameters.max_dense_intervals

/-! ### Shape lemmas for the append path -/

theorem appendOk_none {seg : Segment} (h : seg.downsampling = none) (s : Sample) :
    appendOk seg s = { front := seg.front ++ [s], downsampling := none } := by
  unfold appendOk
  rw [h]

theorem appendOk_noTrigger {seg : Segment} {ds : DownsamplingState}
    (h : seg.downsampling = some ds) (s : Sample)
    (hlen : ds.dense_samples.length + 1 ≠ ds.parameters.max_dense_intervals + 1) :
    appendOk seg s
      = Segment.mk seg.front
          (some (DownsamplingState.mk ds.parameters (ds.dense_samples ++ [s]))) := by
  unfold appendOk
  rw [h]
  simp [hlen]

theorem appendOk_pass {seg : Segment} {ds : DownsamplingState}
    (h : seg.downsampling = some ds) (s : Sample)
    (hlen : ds.dense_samples.length + 1 = ds.parameters.max_dense_intervals + 1)
    (hchk : compactWindowCheck ds.parameters (ds.dense_samples ++ [s]) = true) :
    appendOk seg s
      = Segment.mk (seg.front ++ (ds.dense_samples ++ [s]).take 1)
          (some (DownsamplingState.mk ds.parameters [s])) := by
  unfold appendOk
  rw [h]
  simp [hlen, hchk]

theorem appendOk_fail {seg : Segment} {ds : DownsamplingState}
    (h : seg.downsampling = some ds) (s : Sample)
    (hlen : ds.dense_samples.length + 1 = ds.parameters.max_dense_intervals + 1)
    (hchk : compactWindowCheck ds.parameters (ds.dense_samples ++ [s]) = false) :
    appendOk seg s
      = Segment.mk (seg.front ++ ds.dense_samples)
          (some (DownsamplingState.mk ds.parameters [s])) := by
  unfold appendOk
  rw [h]
  simp [hlen, hchk]

theorem timeline_mk (f : List Sample) (d : Option DownsamplingState) :
    Segment.timeline { front := f, downsampling := d }
      = f ++ (match d with | none => [] | some ds => ds.dense_samples) := by
  cases d <;> rfl

/-- The parameter record is never modified by `appendOk`. -/
theorem appendOk_params {seg : Segment} {ds : DownsamplingState}
    (h : seg.downsampling = some ds) (s : Sample) :
    ∃ d, (appendOk seg s).downsampling
        = some (DownsamplingState.mk ds.parameters d) := by
  by_cases hlen : ds.dense_samples.length + 1 = ds.parameters.max_dense_intervals + 1
  · by_cases hchk : compactWindowCheck ds.parameters (ds.dense_samples ++ [s]) = true
    · exact ⟨[s], by rw [appendOk_pass h s hlen hchk]⟩
    · exact ⟨[s], by rw [appendOk_fail h s hlen (by simpa using hchk)]⟩
  · exact ⟨ds.dense_samples ++ [s], by rw [appendOk_noTrigger h s hlen]⟩

theorem paramsOK_appendOk {seg : Segment} (h : paramsOK seg) (s : Sample) :
    paramsOK (appendOk seg s) := by
  intro ds' h'
  cases hd : seg.downsampling with
  | none => rw [appendOk_none hd] at h'; simp at h'
  | some ds =>
    obtain ⟨d, hd'⟩ := appendOk_params hd s
    rw [hd'] at h'
    cases h'
    exact h ds hd

/-- The timeline of the appended segment is a sublist of the old timeline
with the new sample appended at the end. -/
theorem timeline_appendOk_sublist {seg : Segment} (hok : paramsOK seg) (s : Sample) :
    List.Sublist (appendOk seg s).timeline (seg.timeline ++ [s]) := by
  cases h : seg.downsampling with
  | none =>
      rw [appendOk_none h]
      simp [Segment.timeline, Segment.denseSamples, h]
  | some ds =>
    have hm : 1 ≤ ds.parameters.max_dense_intervals := hok ds h
    by_cases hlen : ds.dense_samples.length + 1 = ds.parameters.max_dense_intervals + 1
    · have hne : ds.dense_samples ≠ [] := by
        intro hnil
        rw [hnil] at hlen
        simp at hlen
        omega
      obtain ⟨d0, dtl, hd⟩ := List.exists_cons_of_ne_nil hne
      by_cases hchk : compactWindowCheck ds.parameters (ds.dense_samples ++ [s]) = true
      · rw [appendOk_pass h s hlen hchk]
        simp [Segment.timeline, Segment.denseSamples, h, hd]
      · rw [appendOk_fail h s hlen (by simpa using hchk)]
        simp [Segment.timeline, Segment.denseSamples, h]
    · rw [appendOk_noTrigger h s hlen]
      simp [Segment.timeline, Segment.denseSamples, h]

/-! ### Hermite interpolation at the knots -/

theorem hermitePosition_left (s0 s1 : Sample) :
    hermitePosition s0 s1 s0.time = s0.position := by
  obtain ⟨t0, ⟨px, py, pz⟩, ⟨vx, vy, vz⟩⟩ := s0
  simp [hermitePosition, vadd, smul3, sub_self, zero_div]

theorem hermiteVelocity_left (s0 s1 : Sample) :
    hermiteVelocity s0 s1 s0.time = s0.velocity := by
  obtain ⟨t0, ⟨px, py, pz⟩, ⟨vx, vy, vz⟩⟩ := s0
  simp [hermiteVelocity, vadd, smul3, sub_self, zero_div]

theorem hermitePosition_right (s0 s1 : Sample) (hne : s0.time ≠ s1.time) :
    hermitePosition s0 s1 s1.time = s1.position := by
  have h1 : (s1.time - s0.time) / (s1.time - s0.time) = 1 :=
    div_self (sub_ne_zero.mpr (Ne.symm hne))
  obtain ⟨t1, ⟨px, py, pz⟩, ⟨vx, vy, vz⟩⟩ := s1
  simp only [hermitePosition] at *
  rw [h1]
  simp [vadd, smul3]
  norm_num

theorem hermiteVelocity_right (s0 s1 : Sample) (hne : s0.time ≠ s1.time) :
    hermiteVelocity s0 s1 s1.time = s1.velocity := by
  have h1 : (s1.time - s0.time) / (s1.time - s0.time) = 1 :=
    div_self (sub_ne_zero.mpr (Ne.symm hne))
  obtain ⟨t1, ⟨px, py, pz⟩, ⟨vx, vy, vz⟩⟩ := s1
  simp only [hermiteVelocity] at *
  rw [h1]
  simp [vadd, smul3]
  norm_num

/-! ### Truncation and append characterization -/

theorem forgetAfter_timeline (seg : Segment) (t : ℚ) :
    (seg.forgetAfter t).timeline = seg.timeline.filter fun s => decide (s.time < t) := by
  cases h : seg.downsampling <;>
    simp [Segment.forgetAfter, Segment.timeline, Segment.denseSamples, h, List.filter_append]

theorem forgetBefore_timeline (seg : Segment) (t : ℚ) :
    (seg.forgetBefore t).timeline = seg.timeline.filter fun s => decide (t ≤ s.time) := by
  cases h : seg.downsampling <;>
    simp [Segment.forgetBefore, Segment.timeline, Segment.denseSamples, h, List.filter_append]

theorem append_ok_of_lt {seg : Segment} {s : Sample}
    (h : ∀ x ∈ seg.timeline, x.time < s.time) :
    seg.append s = Except.ok (appendOk seg s) := by
  unfold Segment.append
  cases hl : seg.timeline.getLast? with
  | none => rfl
  | some l =>
      have hmem : l ∈ seg.timeline := List.mem_of_mem_getLast? hl
      have := h l hmem
      simp [not_le.mpr this]

theorem appendTotal_eq_appendOk {seg : Segment} {s : Sample}
    (h : ∀ x ∈ seg.timeline, x.time < s.time) :
    appendTotal seg s = appendOk seg s := by
  unfold appendTotal
  rw [append_ok_of_lt h]

theorem append_error_iff (seg : Segment) (s : Sample) :
    seg.append s = Except.error SegmentError.outOfOrder
      ↔ ∃ l, seg.timeline.getLast? = some l ∧ s.time ≤ l.time := by
  unfold Segment.append
  cases hl : seg.timeline.getLast? with
  | none => simp
  | some l =>
      by_cases hle : s.time ≤ l.time
      · simp [hle]
      · simp [hle]

/-- The appended sample becomes the last element of the timeline. -/
theorem appendOk_getLast (seg : Segment) (s : Sample) :
    (appendOk seg s).timeline.getLast? = some s := by
  cases h : seg.downsampling with
  | none =>
      rw [appendOk_none h]
      simp [Segment.timeline, Segment.denseSamples]
  | some ds =>
    by_cases hlen : ds.dense_samples.length + 1 = ds.parameters.max_dense_intervals + 1
    · by_cases hchk : compactWindowCheck ds.parameters (ds.dense_samples ++ [s]) = true
      · rw [appendOk_pass h s hlen hchk]
        simp [Segment.timeline, Segment.denseSamples]
      · rw [appendOk_fail h s hlen (by simpa using hchk)]
        simp [Segment.timeline, Segment.denseSamples]
    · rw [appendOk_noTrigger h s hlen]
      simp [Segment.timeline, Segment.denseSamples]

/-! ### Sortedness machinery -/

theorem time_le_getLast {l : List Sample} (hs : sortedTimes l) {x lst : Sample}
    (hx : x ∈ l) (hl : l.getLast? = some lst) : x.time ≤ lst.time := by
  induction l with
  | nil => cases hx
  | cons a rest ih =>
    cases rest with
    | nil =>
        cases hx with
        | head => simp [List.getLast?_cons] at hl; simp [hl]
        | tail _ h => cases h
    | cons b rest' =>
        have hl' : (b :: rest').getLast? = some lst := by
          rw [List.getLast?_cons_cons] at hl
          exact hl
        cases hx with
        | head =>
            have hb : lst ∈ b :: rest' := List.mem_of_mem_getLast? hl'
            have := (List.pairwise_cons.mp hs).1 lst hb
            exact le_of_lt this
        | tail _ h => exact ih (List.pairwise_cons.mp hs).2 h hl'

theorem timeline_runAppends_sublist (seg : Segment) (hok : paramsOK seg) (ss : List Sample) :
    List.Sublist (runAppends seg ss).timeline (seg.timeline ++ ss) := by
  induction ss generalizing seg with
  | nil => simp [runAppends]
  | cons s rest ih =>
    have h1 : List.Sublist (appendTotal seg s).timeline (seg.timeline ++ [s]) := by
      unfold appendTotal
      cases ha : seg.append s with
      | ok seg' =>
          have : seg' = appendOk seg s := by
            unfold Segment.append at ha
            cases hl : seg.timeline.getLast? with
            | none => rw [hl] at ha; cases ha; rfl
            | some l =>
                rw [hl] at ha
                by_cases hle : s.time ≤ l.time
                · simp [hle] at ha
                · simp [hle] at ha; exact ha.symm
          rw [this]
          exact timeline_appendOk_sublist hok s
      | error e => exact List.sublist_append_left _ _
    have hok' : paramsOK (appendTotal seg s) := by
      unfold appendTotal
      cases ha : seg.append s with
      | ok seg' =>
          have : seg' = appendOk seg s := by
            unfold Segment.append at ha
            cases hl : seg.timeline.getLast? with
            | none => rw [hl] at ha; cases ha; rfl
            | some l =>
                rw [hl] at ha
                by_cases hle : s.time ≤ l.time
                · simp [hle] at ha
                · simp [hle] at ha; exact ha.symm
          rw [this]
          exact paramsOK_appendOk hok s
      | error e => exact hok
    have h2 := ih (appendTotal seg s) hok'
    have h3 := h2.trans (h1.append_right rest)
    simpa [List.append_assoc] using h3

/-- A successful `Append` always returns the canonical successor state. -/
theorem append_ok_inv {seg seg' : Segment} {s : Sample}
    (ha : seg.append s = Except.ok seg') : seg' = appendOk seg s := by
  unfold Segment.append at ha
  cases hl : seg.timeline.getLast? with
  | none => rw [hl] at ha; cases ha; rfl
  | some l =>
      rw [hl] at ha
      by_cases hle : s.time ≤ l.time
      · simp [hle] at ha
      · simp [hle] at ha; exact ha.symm

/-- An `Append` call either succeeds canonically or leaves the state
unchanged. -/
theorem appendTotal_cases (seg : Segment) (s : Sample) :
    appendTotal seg s = appendOk seg s ∨ appendTotal seg s = seg := by
  unfold appendTotal
  cases ha : seg.append s with
  | ok seg' => exact Or.inl (append_ok_inv ha)
  | error e => exact Or.inr rfl

theorem sorted_timeline_runAppends {seg : Segment} (hok : paramsOK seg) {ss : List Sample}
    (hs : sortedTimes (seg.timeline ++ ss)) :
    sortedTimes (runAppends seg ss).timeline := by
  have h := timeline_runAppends_sublist seg hok ss
  exact hs.sublist h

/-- Under strictly increasing input times every `Append` of a run succeeds,
so the run coincides with the success-path run. -/
theorem runAppends_eq_foldl_appendOk {seg : Segment} (hok : paramsOK seg) {ss : List Sample}
    (hs : sortedTimes (seg.timeline ++ ss)) :
    runAppends seg ss = ss.foldl appendOk seg := by
  induction ss generalizing seg with
  | nil => rfl
  | cons s rest ih =>
    have hlt : ∀ x ∈ seg.timeline, x.time < s.time := by
      intro x hx
      have := List.pairwise_append.mp hs
      exact this.2.2 x hx s (List.mem_cons_self s rest)
    have h1 : appendTotal seg s = appendOk seg s := appendTotal_eq_appendOk hlt
    have hsub : List.Sublist ((appendOk seg s).timeline ++ rest) (seg.timeline ++ s :: rest) := by
      have h2 := (timeline_appendOk_sublist hok s).append_right rest
      simpa [List.append_assoc] using h2
    have hs' : sortedTimes ((appendOk seg s).timeline ++ rest) := hs.sublist hsub
    have hok' : paramsOK (appendOk seg s) := paramsOK_appendOk hok s
    show runAppends (appendTotal seg s) rest = _
    rw [h1, ih hok' hs']
    rfl

/-! ### Evaluation lemmas -/

theorem evalPosAux_cons2 (s0 s1 : Sample) (rest : List Sample) (t : ℚ) :
    evalPosAux (s0 :: s1 :: rest) t
      = if t < s0.time then Except.error SegmentError.outOfRange
        else if t ≤ s1.time then Except.ok (hermitePosition s0 s1 t)
        else evalPosAux (s1 :: rest) t := rfl

theorem evalVelAux_cons2 (s0 s1 : Sample) (rest : List Sample) (t : ℚ) :
    evalVelAux (s0 :: s1 :: rest) t
      = if t < s0.time then Except.error SegmentError.outOfRange
        else if t ≤ s1.time then Except.ok (hermiteVelocity s0 s1 t)
        else evalVelAux (s1 :: rest) t := rfl

theorem evalPosAux_error : ∀ {l : List Sample} {t : ℚ} {e : SegmentError},
    evalPosAux l t = Except.error e → e = SegmentError.outOfRange
  | [], t, e, h => by
      unfold evalPosAux at h
      cases h
      rfl
  | [s], t, e, h => by
      unfold evalPosAux at h
      by_cases ht : t = s.time
      · simp [ht] at h
      · simp [ht] at h
        simp [h]
  | s0 :: s1 :: rest, t, e, h => by
      rw [evalPosAux_cons2] at h
      by_cases h0 : t < s0.time
      · simp [h0] at h
        simp [h]
      · by_cases h1 : t ≤ s1.time
        · simp [h0, h1] at h
        · simp [h0, h1] at h
          exact evalPosAux_error h

theorem evalVelAux_error : ∀ {l : List Sample} {t : ℚ} {e : SegmentError},
    evalVelAux l t = Except.error e → e = SegmentError.outOfRange
  | [], t, e, h => by
      unfold evalVelAux at h
      cases h
      rfl
  | [s], t, e, h => by
      unfold evalVelAux at h
      by_cases ht : t = s.time
      · simp [ht] at h
      · simp [ht] at h
        simp [h]
  | s0 :: s1 :: rest, t, e, h => by
      rw [evalVelAux_cons2] at h
      by_cases h0 : t < s0.time
      · simp [h0] at h
        simp [h]
      · by_cases h1 : t ≤ s1.time
        · simp [h0, h1] at h
        · simp [h0, h1] at h
          exact evalVelAux_error h

theorem evalPosAux_knot : ∀ {l : List Sample}, sortedTimes l → ∀ {s : Sample}, s ∈ l →
    evalPosAux l s.time = Except.ok s.position
  | [], _, s, hx => by cases hx
  | [a], _, s, hx => by
      have : s = a := by simpa using hx
      subst this
      unfold evalPosAux
      simp
  | a :: b :: rest, hs, s, hx => by
      have hab : a.time < b.time := (List.pairwise_cons.mp hs).1 b (by simp)
      rw [evalPosAux_cons2]
      cases hx with
      | head =>
          simp [not_lt.mpr (le_refl a.time), le_of_lt hab, hermitePosition_left]
      | tail _ hx1 =>
        cases hx1 with
        | head =>
            have h0 : ¬ b.time < a.time := not_lt.mpr (le_of_lt hab)
            simp [h0, hermitePosition_right a b (ne_of_lt hab)]
        | tail _ hx2 =>
            have hsb : b.time < s.time :=
              (List.pairwise_cons.mp (List.pairwise_cons.mp hs).2).1 s hx2
            have h0 : ¬ s.time < a.time := not_lt.mpr (le_of_lt (lt_trans hab hsb))
            have h1 : ¬ s.time ≤ b.time := not_le.mpr hsb
            simp [h0, h1]
            exact evalPosAux_knot (List.pairwise_cons.mp hs).2 (List.mem_cons_of_mem b hx2)

theorem evalVelAux_knot : ∀ {l : List Sample}, sortedTimes l → ∀ {s : Sample}, s ∈ l →
    evalVelAux l s.time = Except.ok s.velocity
  | [], _, s, hx => by cases hx
  | [a], _, s, hx => by
      have : s = a := by simpa using hx
      subst this
      unfold evalVelAux
      simp
  | a :: b :: rest, hs, s, hx => by
      have hab : a.time < b.time := (List.pairwise_cons.mp hs).1 b (by simp)
      rw [evalVelAux_cons2]
      cases hx with
      | head =>
          simp [not_lt.mpr (le_refl a.time), le_of_lt hab, hermiteVelocity_left]
      | tail _ hx1 =>
        cases hx1 with
        | head =>
            have h0 : ¬ b.time < a.time := not_lt.mpr (le_of_lt hab)
            simp [h0, hermiteVelocity_right a b (ne_of_lt hab)]
        | tail _ hx2 =>
            have hsb : b.time < s.time :=
              (List.pairwise_cons.mp (List.pairwise_cons.mp hs).2).1 s hx2
            have h0 : ¬ s.time < a.time := not_lt.mpr (le_of_lt (lt_trans hab hsb))
            have h1 : ¬ s.time ≤ b.time := not_le.mpr hsb
            simp [h0, h1]
            exact evalVelAux_knot (List.pairwise_cons.mp hs).2 (List.mem_cons_of_mem b hx2)

theorem getLast?_cons_eq (x : Sample) (l : List Sample) :
    (x :: l).getLast? = some (lastOf x l) := by
  unfold lastOf
  cases h : l.getLast? <;> simp [List.getLast?_cons, h]

theorem lastOf_cons (x y : Sample) (rest : List Sample) :
    lastOf x (y :: rest) = lastOf y rest := by
  unfold lastOf
  cases h : rest.getLast? <;> simp [List.getLast?_cons, h]

theorem head_time_le_lastOf {y : Sample} {rest : List Sample} (hs : sortedTimes (y :: rest)) :
    y.time ≤ (lastOf y rest).time :=
  time_le_getLast hs (List.mem_cons_self y rest) (getLast?_cons_eq y rest)

theorem evalPosAux_ok_iff : ∀ {x : Sample} {rest : List Sample}, sortedTimes (x :: rest) →
    ∀ t : ℚ, (∃ q, evalPosAux (x :: rest) t = Except.ok q)
      ↔ (x.time ≤ t ∧ t ≤ (lastOf x rest).time)
  | x, [], hs, t => by
      unfold evalPosAux lastOf
      by_cases ht : t = x.time
      · simp [ht]
      · simp only [ht, if_false, Option.getD_none, List.getLast?_nil]
        constructor
        · intro h
          obtain ⟨q, hq⟩ := h
          cases hq
        · intro h
          exact absurd (le_antisymm h.2 h.1) ht
  | x, y :: rest', hs, t => by
      have hs' : sortedTimes (y :: rest') := (List.pairwise_cons.mp hs).2
      rw [evalPosAux_cons2, lastOf_cons]
      by_cases h0 : t < x.time
      · simp only [h0, if_true]
        constructor
        · intro h
          obtain ⟨q, hq⟩ := h
          cases hq
        · intro h
          exact absurd h.1 (not_le.mpr h0)
      · by_cases h1 : t ≤ y.time
        · simp only [h0, if_false, h1, if_true]
          constructor
          · intro _
            exact ⟨not_lt.mp h0, le_trans h1 (head_time_le_lastOf hs')⟩
          · intro _
            exact ⟨hermitePosition x y t, rfl⟩
        · simp only [h0, if_false, h1]
          rw [evalPosAux_ok_iff hs' t]
          constructor
          · intro h
            exact ⟨not_lt.mp h0, h.2⟩
          · intro h
            exact ⟨le_of_lt (not_le.mp h1), h.2⟩

theorem evalVelAux_isOk_eq_evalPosAux : ∀ (l : List Sample) (t : ℚ),
    (∃ q, evalVelAux l t = Except.ok q) ↔ (∃ q, evalPosAux l t = Except.ok q)
  | [], t => by
      unfold evalVelAux evalPosAux
      constructor <;> (intro h; obtain ⟨q, hq⟩ := h; cases hq)
  | [s], t => by
      unfold evalVelAux evalPosAux
      by_cases ht : t = s.time <;> simp [ht]
  | s0 :: s1 :: rest, t => by
      rw [evalPosAux_cons2, evalVelAux_cons2]
      by_cases h0 : t < s0.time
      · simp [h0]
      · by_cases h1 : t ≤ s1.time
        · simp [h0, h1]
        · simp only [h0, if_false, h1]
          exact evalVelAux_isOk_eq_evalPosAux (s1 :: rest) t

theorem evalPosAux_adjacent : ∀ {l1 : List Sample} {e0 e1 : Sample} {l2 : List Sample} {t : ℚ},
    sortedTimes (l1 ++ e0 :: e1 :: l2) → e0.time < t → t ≤ e1.time →
    evalPosAux (l1 ++ e0 :: e1 :: l2) t = Except.ok (hermitePosition e0 e1 t)
  | [], e0, e1, l2, t, hs, h0, h1 => by
      simp only [List.nil_append, evalPosAux_cons2]
      simp [not_lt.mpr (le_of_lt h0), h1]
  | x :: l1', e0, e1, l2, t, hs, h0, h1 => by
      have hs0 : sortedTimes (x :: (l1' ++ e0 :: e1 :: l2)) := by
        simpa using hs
      have hx0 : x.time < e0.time := (List.pairwise_cons.mp hs0).1 e0 (by simp)
      have hs' : sortedTimes (l1' ++ e0 :: e1 :: l2) := (List.pairwise_cons.mp hs0).2
      have hn0 : ¬ t < x.time := not_lt.mpr (le_of_lt (lt_trans hx0 h0))
      cases l1' with
      | nil =>
          simp only [List.cons_append, List.nil_append, evalPosAux_cons2]
          have hn1 : ¬ t ≤ e0.time := not_le.mpr h0
          simp only [hn0, if_false, hn1]
          exact evalPosAux_adjacent hs' h0 h1
      | cons y l1'' =>
          have hy0 : y.time < e0.time := by
            have hs1 : sortedTimes (y :: (l1'' ++ e0 :: e1 :: l2)) := by
              simpa using hs'
            exact (List.pairwise_cons.mp hs1).1 e0 (by simp)
          simp only [List.cons_append, evalPosAux_cons2]
          have hn1 : ¬ t ≤ y.time := not_le.mpr (lt_trans hy0 h0)
          simp only [hn0, if_false, hn1]
          exact evalPosAux_adjacent hs' h0 h1

/-! ### Compaction check characterization and coverage -/

theorem compactWindowCheck_iff (p : DownsamplingParameters) (e0 : Sample)
    (mid : List Sample) (e1 : Sample) :
    compactWindowCheck p (e0 :: mid ++ [e1]) = true
      ↔ ∀ x ∈ mid,
          normSq (vsub (hermitePosition e0 e1 x.time) x.position) ≤ p.tolerance ^ 2 := by
  unfold compactWindowCheck interiorOf
  have hh : (e0 :: mid ++ [e1]).head? = some e0 := rfl
  have hl : (e0 :: mid ++ [e1]).getLast? = some e1 := List.getLast?_concat (e0 :: mid)
  rw [hh, hl]
  simp [List.all_eq_true]

theorem paramsAre_appendOk {p : DownsamplingParameters} {seg : Segment}
    (h : paramsAre p seg) (s : Sample) : paramsAre p (appendOk seg s) := by
  obtain ⟨d, hd⟩ := h
  obtain ⟨d', hd'⟩ := appendOk_params hd s
  exact ⟨d', hd'⟩

theorem paramsAre_paramsOK {p : DownsamplingParameters} {seg : Segment}
    (hm : 1 ≤ p.max_dense_intervals) (h : paramsAre p seg) : paramsOK seg := by
  obtain ⟨d, hd⟩ := h
  intro ds hds
  rw [hd] at hds
  cases hds
  exact hm

theorem covered_append {tolSq : ℚ} {tl : List Sample} {s : Sample}
    (h : covered tolSq tl s) (ext : List Sample) : covered tolSq (tl ++ ext) s := by
  obtain ⟨l1, e0, e1, l2, heq, h0, h1, hb⟩ := h
  exact ⟨l1, e0, e1, l2 ++ ext, by rw [heq]; simp, h0, h1, hb⟩

theorem covered_stable_timeline {tolSq : ℚ} {seg : Segment} {s : Sample}
    (h : covered tolSq (stablePart seg) s) : covered tolSq seg.timeline s := by
  have heq : seg.timeline = stablePart seg ++ seg.denseSamples.drop 1 := by
    unfold stablePart Segment.timeline
    rw [List.append_assoc, List.take_append_drop]
  rw [heq]
  exact covered_append h _

theorem stablePart_appendOk {seg : Segment} (hok : paramsOK seg) (s : Sample) :
    ∃ ext, stablePart (appendOk seg s) = stablePart seg ++ ext := by
  cases h : seg.downsampling with
  | none =>
      refine ⟨[s], ?_⟩
      rw [appendOk_none h]
      simp [stablePart, Segment.denseSamples, h]
  | some ds =>
    have hm : 1 ≤ ds.parameters.max_dense_intervals := hok ds h
    by_cases hlen : ds.dense_samples.length + 1 = ds.parameters.max_dense_intervals + 1
    · have hne : ds.dense_samples ≠ [] := by
        intro hnil
        rw [hnil] at hlen
        simp at hlen
        omega
      obtain ⟨d0, dtl, hd⟩ := List.exists_cons_of_ne_nil hne
      by_cases hchk : compactWindowCheck ds.parameters (ds.dense_samples ++ [s]) = true
      · refine ⟨[s], ?_⟩
        rw [appendOk_pass h s hlen hchk]
        simp [stablePart, Segment.denseSamples, h, hd]
      · refine ⟨dtl ++ [s], ?_⟩
        rw [appendOk_fail h s hlen (by simpa using hchk)]
        simp [stablePart, Segment.denseSamples, h, hd]
    · cases hd : ds.dense_samples with
      | nil =>
          refine ⟨[s], ?_⟩
          rw [appendOk_noTrigger h s hlen]
          simp [stablePart, Segment.denseSamples, h, hd]
      | cons d0 dtl =>
          refine ⟨[], ?_⟩
          rw [appendOk_noTrigger h s hlen]
          simp [stablePart, Segment.denseSamples, h, hd]

theorem coverage_step {p : DownsamplingParameters} {seg : Segment} {b s : Sample}
    (hm : 1 ≤ p.max_dense_intervals) (hp : paramsAre p seg)
    (hs : sortedTimes (seg.timeline ++ [b]))
    (h : s ∈ seg.timeline ∨ covered (p.tolerance ^ 2) (stablePart seg) s) :
    s ∈ (appendOk seg b).timeline
      ∨ covered (p.tolerance ^ 2) (stablePart (appendOk seg b)) s := by
  have hok := paramsAre_paramsOK hm hp
  cases h with
  | inr hcov =>
      obtain ⟨ext, hext⟩ := stablePart_appendOk hok b
      refine Or.inr ?_
      rw [hext]
      exact covered_append hcov ext
  | inl hmem =>
    obtain ⟨d, hd⟩ := hp
    have htl : seg.timeline = seg.front ++ d := by
      unfold Segment.timeline Segment.denseSamples
      rw [hd]
    by_cases hlen : d.length + 1 = p.max_dense_intervals + 1
    · have hne : d ≠ [] := by
        intro hnil
        rw [hnil] at hlen
        simp at hlen
        omega
      obtain ⟨d0, dtl, hdd⟩ := List.exists_cons_of_ne_nil hne
      subst hdd
      by_cases hchk : compactWindowCheck p (d0 :: dtl ++ [b]) = true
      · have hpass := appendOk_pass hd b hlen (by simpa using hchk)
        have hmem' : s ∈ seg.front ++ d0 :: dtl := by rw [← htl]; exact hmem
        rcases List.mem_append.mp hmem' with hf | hcons
        · refine Or.inl ?_
          rw [hpass]
          simp only [Segment.timeline, Segment.denseSamples, List.mem_append,
            List.mem_cons]
          tauto
        · rcases List.mem_cons.mp hcons with hsd0 | hsdtl
          · refine Or.inl ?_
            rw [hpass]
            simp only [Segment.timeline, Segment.denseSamples, List.mem_append,
              List.mem_cons, hsd0]
            tauto
          · -- s is an interior sample of the compacted window: covered
            refine Or.inr ?_
            have hsp : stablePart (appendOk seg b) = seg.front ++ d0 :: b :: [] := by
              rw [hpass]
              simp [stablePart, Segment.denseSamples]
            have hs1 : sortedTimes (seg.front ++ d0 :: dtl) := by
              have := hs.sublist (List.sublist_append_left _ [b])
              rw [htl] at this
              exact this
            have hd0s : d0.time < s.time := by
              have h2 := (List.pairwise_append.mp hs1).2.1
              exact (List.pairwise_cons.mp h2).1 s hsdtl
            have hsb : s.time < b.time := by
              have h3 := (List.pairwise_append.mp hs).2.2
              exact h3 s (by rw [htl]; exact hmem') b (by simp)
            have hbound := (compactWindowCheck_iff p d0 dtl b).mp (by simpa using hchk)
            exact ⟨seg.front, d0, b, [], hsp, hd0s, hsb, hbound s hsdtl⟩
      · have hfail := appendOk_fail hd b hlen (by simpa using hchk)
        refine Or.inl ?_
        rw [hfail]
        rw [htl] at hmem
        simp only [Segment.timeline, Segment.denseSamples, List.mem_append,
          List.mem_cons] at hmem ⊢
        tauto
    · have hnt := appendOk_noTrigger hd b hlen
      refine Or.inl ?_
      rw [hnt]
      rw [htl] at hmem
      simp only [Segment.timeline, Segment.denseSamples, List.mem_append,
        List.mem_cons] at hmem ⊢
      tauto

theorem coverage_run {p : DownsamplingParameters} (hm : 1 ≤ p.max_dense_intervals) :
    ∀ (ss : List Sample) (seg : Segment), paramsAre p seg →
    sortedTimes (seg.timeline ++ ss) →
    ∀ s, (s ∈ seg.timeline ∨ covered (p.tolerance ^ 2) (stablePart seg) s) →
    (s ∈ (ss.foldl appendOk seg).timeline ∨
      covered (p.tolerance ^ 2) (stablePart (ss.foldl appendOk seg)) s)
  | [], seg, hp, hs, s, h => h
  | b :: rest, seg, hp, hs, s, h => by
      have hok := paramsAre_paramsOK hm hp
      have hs1 : sortedTimes (seg.timeline ++ [b]) :=
        hs.sublist (List.Sublist.append_left ((List.nil_sublist rest).cons₂ b) seg.timeline)
      have hstep := coverage_step hm hp hs1 h
      have hs2 : sortedTimes ((appendOk seg b).timeline ++ rest) := by
        have h4 := (timeline_appendOk_sublist hok b).append_right rest
        exact hs.sublist (by simpa [List.append_assoc] using h4)
      exact coverage_run hm rest (appendOk seg b) (paramsAre_appendOk hp b) hs2 s hstep

theorem coverage_main {p : DownsamplingParameters} (hm : 1 ≤ p.max_dense_intervals) :
    ∀ (ss : List Sample) (seg : Segment), paramsAre p seg →
    sortedTimes (seg.timeline ++ ss) →
    ∀ s ∈ ss, (s ∈ (ss.foldl appendOk seg).timeline ∨
      covered (p.tolerance ^ 2) (stablePart (ss.foldl appendOk seg)) s)
  | [], seg, hp, hs, s, hmem => by cases hmem
  | b :: rest, seg, hp, hs, s, hmem => by
      have hok := paramsAre_paramsOK hm hp
      have hs2 : sortedTimes ((appendOk seg b).timeline ++ rest) := by
        have h4 := (timeline_appendOk_sublist hok b).append_right rest
        exact hs.sublist (by simpa [List.append_assoc] using h4)
      cases List.mem_cons.mp hmem with
      | inl hsb =>
          subst hsb
          have hbmem : s ∈ (appendOk seg s).timeline :=
            List.mem_of_mem_getLast? (appendOk_getLast seg s)
          exact coverage_run hm rest (appendOk seg s) (paramsAre_appendOk hp s) hs2 s
            (Or.inl hbmem)
      | inr hsrest =>
          exact coverage_main hm rest (appendOk seg b) (paramsAre_appendOk hp b) hs2 s hsrest

/-! ### Run and restart machinery -/

theorem paramsAre_foldl {p : DownsamplingParameters} {seg : Segment}
    (h : paramsAre p seg) (ss : List Sample) : paramsAre p (ss.foldl appendOk seg) := by
  induction ss generalizing seg with
  | nil => exact h
  | cons b rest ih => exact ih (paramsAre_appendOk h b)

theorem timeline_foldl_appendOk_sublist {seg : Segment} (hok : paramsOK seg) (ss : List Sample) :
    List.Sublist ((ss.foldl appendOk seg).timeline) (seg.timeline ++ ss) := by
  induction ss generalizing seg with
  | nil => simp
  | cons s rest ih =>
    have h2 := ih (paramsOK_appendOk hok s)
    have h3 := h2.trans ((timeline_appendOk_sublist hok s).append_right rest)
    simpa [List.append_assoc] using h3

theorem sorted_timeline_foldl {seg : Segment} (hok : paramsOK seg) {ss : List Sample}
    (hs : sortedTimes (seg.timeline ++ ss)) :
    sortedTimes ((ss.foldl appendOk seg).timeline) :=
  hs.sublist (timeline_foldl_appendOk_sublist hok ss)

theorem mem_timeline_foldl {seg : Segment} (hok : paramsOK seg) {ss : List Sample} {x : Sample}
    (hx : x ∈ (ss.foldl appendOk seg).timeline) : x ∈ seg.timeline ++ ss :=
  (timeline_foldl_appendOk_sublist hok ss).subset hx

theorem allPass_append (seg : Segment) (l1 l2 : List Sample) :
    allPass seg (l1 ++ l2) = (allPass seg l1 && allPass (l1.foldl appendOk seg) l2) := by
  induction l1 generalizing seg with
  | nil => simp [allPass]
  | cons b rest ih =>
      show (stepPasses seg b && allPass (appendOk seg b) (rest ++ l2)) = _
      rw [ih (appendOk seg b), ← Bool.and_assoc]
      rfl

theorem stepPasses_trigger {seg : Segment} {ds : DownsamplingState} {b : Sample}
    (hd : seg.downsampling = some ds)
    (hlen : ds.dense_samples.length + 1 = ds.parameters.max_dense_intervals + 1)
    (hstep : stepPasses seg b = true) :
    compactWindowCheck ds.parameters (ds.dense_samples ++ [b]) = true := by
  unfold stepPasses at hstep
  rw [hd] at hstep
  simpa [hlen] using hstep

theorem filter_lt_eq_self {l : List Sample} {t : ℚ} (h : ∀ x ∈ l, x.time < t) :
    (l.filter fun s => decide (s.time < t)) = l :=
  List.filter_eq_self.mpr fun x hx => decide_eq_true (h x hx)

theorem filter_lt_eq_nil {l : List Sample} {t : ℚ} (h : ∀ x ∈ l, ¬ x.time < t) :
    (l.filter fun s => decide (s.time < t)) = [] := by
  rw [List.filter_eq_nil_iff]
  intro x hx
  simpa using h x hx

theorem restart_last {p : DownsamplingParameters} (hm : 1 ≤ p.max_dense_intervals)
    {S' : Segment} {c : Sample} (hp : paramsAre p S')
    (hall : ∀ x ∈ S'.timeline, x.time < c.time)
    (hpass : stepPasses S' c = true) :
    appendOk ((appendOk S' c).forgetAfter c.time) c = appendOk S' c := by
  obtain ⟨d, hd⟩ := hp
  cases S' with
  | mk f' dso =>
  change dso = some (DownsamplingState.mk p d) at hd
  subst hd
  have hallf : ∀ x ∈ f', x.time < c.time := by
    intro x hx
    exact hall x (by simp [Segment.timeline, Segment.denseSamples, hx])
  have halld : ∀ x ∈ d, x.time < c.time := by
    intro x hx
    exact hall x (by simp [Segment.timeline, Segment.denseSamples, hx])
  by_cases hlen : d.length + 1 = p.max_dense_intervals + 1
  · have hchk : compactWindowCheck p (d ++ [c]) = true :=
      stepPasses_trigger rfl hlen hpass
    have hne : d ≠ [] := by
      intro hnil
      rw [hnil] at hlen
      simp at hlen
      omega
    obtain ⟨d0, dtl, hdd⟩ := List.exists_cons_of_ne_nil hne
    subst hdd
    have hps := @appendOk_pass (Segment.mk f' (some (DownsamplingState.mk p (d0 :: dtl))))
      (DownsamplingState.mk p (d0 :: dtl)) rfl c hlen hchk
    rw [hps]
    have hforget : Segment.forgetAfter
        (Segment.mk (f' ++ ((d0 :: dtl) ++ [c]).take 1)
          (some (DownsamplingState.mk p [c]))) c.time
        = Segment.mk (f' ++ [d0]) (some (DownsamplingState.mk p [])) := by
      unfold Segment.forgetAfter
      simp only [Option.map_some, List.take_cons, List.take_zero]
      have h1 : ((f' ++ [d0]).filter fun s => decide (s.time < c.time)) = f' ++ [d0] := by
        apply filter_lt_eq_self
        intro x hx
        rcases List.mem_append.mp hx with hf | hd0
        · exact hallf x hf
        · rw [List.mem_singleton.mp hd0]
          exact halld d0 (by simp)
      have h2 : (([c] : List Sample).filter fun s => decide (s.time < c.time)) = [] := by
        apply filter_lt_eq_nil
        intro x hx
        rw [List.mem_singleton.mp hx]
        exact lt_irrefl c.time
      simp [h1, h2]
    rw [hforget]
    have hnt2 := @appendOk_noTrigger
      (Segment.mk (f' ++ [d0]) (some (DownsamplingState.mk p [])))
      (DownsamplingState.mk p []) rfl c (by simp; omega)
    rw [hnt2]
    simp
  · have hnt := @appendOk_noTrigger (Segment.mk f' (some (DownsamplingState.mk p d)))
      (DownsamplingState.mk p d) rfl c hlen
    rw [hnt]
    have hforget : Segment.forgetAfter
        (Segment.mk f' (some (DownsamplingState.mk p (d ++ [c])))) c.time
        = Segment.mk f' (some (DownsamplingState.mk p d)) := by
      unfold Segment.forgetAfter
      simp only [Option.map_some]
      have h1 : (f'.filter fun s => decide (s.time < c.time)) = f' :=
        filter_lt_eq_self hallf
      have h2 : ((d ++ [c]).filter fun s => decide (s.time < c.time)) = d := by
        rw [List.filter_append, filter_lt_eq_self halld]
        have h3 : (([c] : List Sample).filter fun s => decide (s.time < c.time)) = [] := by
          apply filter_lt_eq_nil
          intro x hx
          rw [List.mem_singleton.mp hx]
          exact lt_irrefl c.time
        rw [h3, List.append_nil]
      simp [h1, h2]
    rw [hforget]
    exact hnt

theorem forget_appendOk_eq {p : DownsamplingParameters} (hm : 1 ≤ p.max_dense_intervals)
    {S₁ : Segment} {b c : Sample}
    (hp : paramsAre p S₁) (hsorted : sortedTimes S₁.timeline)
    (hcb : c.time < b.time)
    (hmem : c ∈ (appendOk S₁ b).timeline)
    (hpass : stepPasses S₁ b = true) :
    (appendOk S₁ b).forgetAfter c.time = S₁.forgetAfter c.time ∧ c ∈ S₁.timeline := by
  obtain ⟨d, hd⟩ := hp
  cases S₁ with
  | mk f₁ dso =>
  change dso = some (DownsamplingState.mk p d) at hd
  subst hd
  have hcneb : c ≠ b := by
    intro he
    rw [he] at hcb
    exact lt_irrefl b.time hcb
  have htl : Segment.timeline (Segment.mk f₁ (some (DownsamplingState.mk p d))) = f₁ ++ d := by
    simp [Segment.timeline, Segment.denseSamples]
  have hbfilter : (([b] : List Sample).filter fun s => decide (s.time < c.time)) = [] := by
    apply filter_lt_eq_nil
    intro x hx
    rw [List.mem_singleton.mp hx]
    exact not_lt.mpr (le_of_lt hcb)
  by_cases hlen : d.length + 1 = p.max_dense_intervals + 1
  · have hchk : compactWindowCheck p (d ++ [b]) = true :=
      stepPasses_trigger rfl hlen hpass
    have hne : d ≠ [] := by
      intro hnil
      rw [hnil] at hlen
      simp at hlen
      omega
    obtain ⟨d0, dtl, hdd⟩ := List.exists_cons_of_ne_nil hne
    subst hdd
    have htake : List.take 1 (d0 :: dtl ++ [b]) = [d0] := rfl
    have hps := @appendOk_pass (Segment.mk f₁ (some (DownsamplingState.mk p (d0 :: dtl))))
      (DownsamplingState.mk p (d0 :: dtl)) rfl b hlen hchk
    rw [hps] at hmem ⊢
    have h5 : Segment.timeline
        (Segment.mk (f₁ ++ List.take 1 ((d0 :: dtl) ++ [b]))
          (some (DownsamplingState.mk p [b]))) = (f₁ ++ [d0]) ++ [b] := by
      simp [Segment.timeline, Segment.denseSamples, htake]
    rw [h5] at hmem
    have hmem' : c ∈ f₁ ++ [d0] := by
      rcases List.mem_append.mp hmem with hc1 | hc2
      · exact hc1
      · exact absurd (List.mem_singleton.mp hc2) hcneb
    have hsorted' : sortedTimes (f₁ ++ d0 :: dtl) := by
      rw [htl] at hsorted
      exact hsorted
    have hcd0 : c.time ≤ d0.time := by
      rcases List.mem_append.mp hmem' with hcf | hcd0
      · exact le_of_lt ((List.pairwise_append.mp hsorted').2.2 c hcf d0 (by simp))
      · rw [List.mem_singleton.mp hcd0]
    have hdfilter : ((d0 :: dtl).filter fun s => decide (s.time < c.time)) = [] := by
      apply filter_lt_eq_nil
      intro x hx
      rcases List.mem_cons.mp hx with hx0 | hxtl
      · rw [hx0]
        exact not_lt.mpr hcd0
      · have hd0x : d0.time < x.time :=
          (List.pairwise_cons.mp (List.pairwise_append.mp hsorted').2.1).1 x hxtl
        exact not_lt.mpr (le_of_lt (lt_of_le_of_lt hcd0 hd0x))
    have hd0filter : (([d0] : List Sample).filter fun s => decide (s.time < c.time)) = [] := by
      apply filter_lt_eq_nil
      intro x hx
      rw [List.mem_singleton.mp hx]
      exact not_lt.mpr hcd0
    constructor
    · unfold Segment.forgetAfter
      simp [List.filter_append, htake, hd0filter, hbfilter, hdfilter]
    · rw [htl]
      rcases List.mem_append.mp hmem' with hcf | hcd0
      · exact List.mem_append.mpr (Or.inl hcf)
      · exact List.mem_append.mpr (Or.inr (by simp [List.mem_singleton.mp hcd0]))
  · have hnt := @appendOk_noTrigger (Segment.mk f₁ (some (DownsamplingState.mk p d)))
      (DownsamplingState.mk p d) rfl b hlen
    rw [hnt] at hmem ⊢
    have h5 : Segment.timeline
        (Segment.mk f₁ (some (DownsamplingState.mk p (d ++ [b])))) = (f₁ ++ d) ++ [b] := by
      simp [Segment.timeline, Segment.denseSamples]
    rw [h5] at hmem
    have hmem' : c ∈ f₁ ++ d := by
      rcases List.mem_append.mp hmem with hc1 | hc2
      · exact hc1
      · exact absurd (List.mem_singleton.mp hc2) hcneb
    constructor
    · unfold Segment.forgetAfter
      simp [List.filter_append, hbfilter]
    · rw [htl]
      exact hmem'

theorem configuredEmpty_timeline (p : DownsamplingParameters) :
    (configuredEmpty p).timeline = [] := rfl

theorem paramsAre_configuredEmpty (p : DownsamplingParameters) :
    paramsAre p (configuredEmpty p) := ⟨[], rfl⟩

theorem restart_core (p : DownsamplingParameters) (hm : 1 ≤ p.max_dense_intervals)
    (pre : List Sample) (c : Sample) (post : List Sample) :
    sortedTimes (pre ++ c :: post) →
    allPass (configuredEmpty p) (pre ++ c :: post) = true →
    c ∈ ((pre ++ c :: post).foldl appendOk (configuredEmpty p)).timeline →
    appendOk (((pre ++ c :: post).foldl appendOk (configuredEmpty p)).forgetAfter c.time) c
      = (pre ++ [c]).foldl appendOk (configuredEmpty p) := by
  induction post using List.reverseRecOn with
  | nil =>
      intro hs hp hmem
      have hpar := paramsAre_configuredEmpty p
      have hok0 := paramsAre_paramsOK hm hpar
      have hpS' := paramsAre_foldl hpar pre
      have h6 : (pre ++ [c]).foldl appendOk (configuredEmpty p)
          = appendOk (pre.foldl appendOk (configuredEmpty p)) c := by
        rw [List.foldl_append]
        rfl
      have hall : ∀ x ∈ (pre.foldl appendOk (configuredEmpty p)).timeline,
          x.time < c.time := by
        intro x hx
        have hx2 := mem_timeline_foldl hok0 hx
        rw [configuredEmpty_timeline] at hx2
        simp only [List.nil_append] at hx2
        exact (List.pairwise_append.mp hs).2.2 x hx2 c (by simp)
      have hpass : stepPasses (pre.foldl appendOk (configuredEmpty p)) c = true := by
        rw [show pre ++ [c] = pre ++ [c] from rfl, allPass_append] at hp
        simp only [Bool.and_eq_true] at hp
        have := hp.2
        simp [allPass] at this
        exact this
      rw [h6]
      exact restart_last hm hpS' hall hpass
  | append_singleton post' b ih =>
      intro hs hp hmem
      have hpar := paramsAre_configuredEmpty p
      have hok0 := paramsAre_paramsOK hm hpar
      have hconc : pre ++ c :: (post' ++ [b]) = (pre ++ c :: post') ++ [b] := by
        simp
      have hpar₁ := paramsAre_foldl hpar (pre ++ c :: post')
      have hfold : (pre ++ c :: (post' ++ [b])).foldl appendOk (configuredEmpty p)
          = appendOk ((pre ++ c :: post').foldl appendOk (configuredEmpty p)) b := by
        rw [hconc, List.foldl_append]
        rfl
      have hsub : List.Sublist (pre ++ c :: post') (pre ++ c :: (post' ++ [b])) := by
        rw [hconc]
        exact List.sublist_append_left _ _
      have hs' : sortedTimes (pre ++ c :: post') := hs.sublist hsub
      have hboth : allPass (configuredEmpty p) (pre ++ c :: post') = true ∧
          stepPasses ((pre ++ c :: post').foldl appendOk (configuredEmpty p)) b = true := by
        rw [hconc, allPass_append] at hp
        simp only [Bool.and_eq_true] at hp
        refine ⟨hp.1, ?_⟩
        have := hp.2
        simp [allPass] at this
        simpa [List.foldl_append] using this
      have hsorted₁ : sortedTimes
          ((pre ++ c :: post').foldl appendOk (configuredEmpty p)).timeline := by
        apply sorted_timeline_foldl hok0
        rw [configuredEmpty_timeline]
        simpa using hs'
      have hcb : c.time < b.time := by
        have h7 := (List.pairwise_append.mp hs).2.1
        exact (List.pairwise_cons.mp h7).1 b (by simp)
      rw [hfold] at hmem
      obtain ⟨hfe, hmem₁⟩ :=
        forget_appendOk_eq hm hpar₁ hsorted₁ hcb hmem hboth.2
      rw [hfold, hfe]
      exact ih hs' hboth.1 hmem₁

/-! ### Invariant preservation across operations -/

theorem paramsOK_forgetAfter {seg : Segment} (h : paramsOK seg) (t : ℚ) :
    paramsOK (seg.forgetAfter t) := by
  intro ds' h'
  unfold Segment.forgetAfter at h'
  cases hd : seg.downsampling with
  | none => rw [hd] at h'; cases h'
  | some ds =>
      rw [hd] at h'
      simp only [Option.map_some] at h'
      cases h'
      exact h ds hd

theorem paramsOK_forgetBefore {seg : Segment} (h : paramsOK seg) (t : ℚ) :
    paramsOK (seg.forgetBefore t) := by
  intro ds' h'
  unfold Segment.forgetBefore at h'
  cases hd : seg.downsampling with
  | none => rw [hd] at h'; cases h'
  | some ds =>
      rw [hd] at h'
      simp only [Option.map_some] at h'
      cases h'
      exact h ds hd

theorem paramsOK_applySegOp {seg : Segment} (h : paramsOK seg) (op : SegOp) :
    paramsOK (applySegOp seg op) := by
  cases op with
  | append s =>
      show paramsOK (appendTotal seg s)
      rcases appendTotal_cases seg s with hc | hc
      · rw [hc]; exact paramsOK_appendOk h s
      · rw [hc]; exact h
  | forgetAfter t => exact paramsOK_forgetAfter h t
  | forgetBefore t => exact paramsOK_forgetBefore h t

theorem sorted_appendTotal {seg : Segment} (hok : paramsOK seg)
    (hs : sortedTimes seg.timeline) (s : Sample) :
    sortedTimes (appendTotal seg s).timeline := by
  unfold appendTotal
  cases ha : seg.append s with
  | error e => exact hs
  | ok seg' =>
    have hse : seg' = appendOk seg s := append_ok_inv ha
    subst hse
    have hall : ∀ x ∈ seg.timeline, x.time < s.time := by
      intro x hx
      unfold Segment.append at ha
      cases hl : seg.timeline.getLast? with
      | none =>
          exact absurd hx (by simp [List.getLast?_eq_none_iff.mp hl])
      | some l =>
          rw [hl] at ha
          by_cases hle : s.time ≤ l.time
          · simp [hle] at ha
          · exact lt_of_le_of_lt (time_le_getLast hs hx hl) (not_le.mp hle)
    have hext : sortedTimes (seg.timeline ++ [s]) := by
      refine List.pairwise_append.mpr ⟨hs, List.pairwise_singleton _ _, ?_⟩
      intro x hx y hy
      rw [List.mem_singleton.mp hy]
      exact hall x hx
    exact hext.sublist (timeline_appendOk_sublist hok s)

theorem sorted_applySegOp {seg : Segment} (hok : paramsOK seg)
    (hs : sortedTimes seg.timeline) (op : SegOp) :
    sortedTimes (applySegOp seg op).timeline := by
  cases op with
  | append s => exact sorted_appendTotal hok hs s
  | forgetAfter t =>
      show sortedTimes (seg.forgetAfter t).timeline
      rw [forgetAfter_timeline]
      exact hs.sublist (List.filter_sublist _)
  | forgetBefore t =>
      show sortedTimes (seg.forgetBefore t).timeline
      rw [forgetBefore_timeline]
      exact hs.sublist (List.filter_sublist _)

theorem denseBounded_appendOk {seg : Segment} (hok : paramsOK seg)
    (hb : denseBounded seg) (s : Sample) : denseBounded (appendOk seg s) := by
  intro ds' h'
  cases hd : seg.downsampling with
  | none => rw [appendOk_none hd] at h'; cases h'
  | some ds =>
    have hm := hok ds hd
    have hlend := hb ds hd
    by_cases hlen : ds.dense_samples.length + 1 = ds.parameters.max_dense_intervals + 1
    · by_cases hchk : compactWindowCheck ds.parameters (ds.dense_samples ++ [s]) = true
      · rw [appendOk_pass hd s hlen hchk] at h'
        cases h'
        simpa using hm
      · rw [appendOk_fail hd s hlen (by simpa using hchk)] at h'
        cases h'
        simpa using hm
    · rw [appendOk_noTrigger hd s hlen] at h'
      cases h'
      simp only [List.length_append, List.length_cons, List.length_nil]
      omega

theorem denseBounded_applySegOp {seg : Segment} (hok : paramsOK seg)
    (hb : denseBounded seg) (op : SegOp) : denseBounded (applySegOp seg op) := by
  cases op with
  | append s =>
      show denseBounded (appendTotal seg s)
      rcases appendTotal_cases seg s with hc | hc
      · rw [hc]; exact denseBounded_appendOk hok hb s
      · rw [hc]; exact hb
  | forgetAfter t =>
      intro ds' h'
      simp only [applySegOp] at h'
      unfold Segment.forgetAfter at h'
      cases hd : seg.downsampling with
      | none => rw [hd] at h'; cases h'
      | some ds =>
          rw [hd] at h'
          simp only [Option.map_some] at h'
          cases h'
          exact le_trans (List.length_filter_le _ _) (hb ds hd)
  | forgetBefore t =>
      intro ds' h'
      simp only [applySegOp] at h'
      unfold Segment.forgetBefore at h'
      cases hd : seg.downsampling with
      | none => rw [hd] at h'; cases h'
      | some ds =>
          rw [hd] at h'
          simp only [Option.map_some] at h'
          cases h'
          exact le_trans (List.length_filter_le _ _) (hb ds hd)

theorem paramsAre_forgetAfter {p : DownsamplingParameters} {seg : Segment}
    (h : paramsAre p seg) (t : ℚ) : paramsAre p (seg.forgetAfter t) := by
  obtain ⟨d, hd⟩ := h
  refine ⟨d.filter fun s => decide (s.time < t), ?_⟩
  unfold Segment.forgetAfter
  rw [hd]
  rfl

theorem paramsAre_forgetBefore {p : DownsamplingParameters} {seg : Segment}
    (h : paramsAre p seg) (t : ℚ) : paramsAre p (seg.forgetBefore t) := by
  obtain ⟨d, hd⟩ := h
  refine ⟨d.filter fun s => decide (t ≤ s.time), ?_⟩
  unfold Segment.forgetBefore
  rw [hd]
  rfl

theorem paramsAre_applySegOp {p : DownsamplingParameters} {seg : Segment}
    (h : paramsAre p seg) (op : SegOp) : paramsAre p (applySegOp seg op) := by
  cases op with
  | append s =>
      show paramsAre p (appendTotal seg s)
      rcases appendTotal_cases seg s with hc | hc
      · rw [hc]; exact paramsAre_appendOk h s
      · rw [hc]; exact h
  | forgetAfter t => exact paramsAre_forgetAfter h t
  | forgetBefore t => exact paramsAre_forgetBefore h t

theorem paramsAre_runOps {p : DownsamplingParameters} {seg : Segment}
    (h : paramsAre p seg) (ops : List SegOp) : paramsAre p (runOps seg ops) := by
  induction ops generalizing seg with
  | nil => exact h
  | cons op rest ih => exact ih (paramsAre_applySegOp h op)

theorem runOps_invariant {seg : Segment} (hok : paramsOK seg)
    (hs : sortedTimes seg.timeline) (hb : denseBounded seg) (ops : List SegOp) :
    paramsOK (runOps seg ops) ∧ sortedTimes (runOps seg ops).timeline
      ∧ denseBounded (runOps seg ops) := by
  induction ops generalizing seg with
  | nil => exact ⟨hok, hs, hb⟩
  | cons op rest ih =>
      exact ih (paramsOK_applySegOp hok op) (sorted_applySegOp hok hs op)
        (denseBounded_applySegOp hok hb op)

/-! ### Claim theorems -/

/-- C3: Truncation boundary law.  `ForgetAfter t` removes exactly the samples
with time greater than or equal to `t` (so afterwards the last retained time,
if any, is strictly less than `t`), `ForgetBefore t` removes exactly the
samples with time strictly less than `t` (so afterwards the first retained
time, if any, is at least `t`), and the remaining samples are unchanged and in
their original order. -/
theorem c3_truncation_boundary (seg : Segment) (t : ℚ) :
    (∀ s, s ∈ (seg.forgetAfter t).timeline ↔ (s ∈ seg.timeline ∧ s.time < t))
    ∧ (∀ s, s ∈ (seg.forgetBefore t).timeline ↔ (s ∈ seg.timeline ∧ t ≤ s.time))
    ∧ List.Sublist (seg.forgetAfter t).timeline seg.timeline
    ∧ List.Sublist (seg.forgetBefore t).timeline seg.timeline
    ∧ (∀ l, (seg.forgetAfter t).timeline.getLast? = some l → l.time < t)
    ∧ (∀ f, (seg.forgetBefore t).timeline.head? = some f → t ≤ f.time) := by
  refine ⟨?_, ?_, ?_, ?_, ?_, ?_⟩
  · intro s
    rw [forgetAfter_timeline]
    simp [List.mem_filter]
  · intro s
    rw [forgetBefore_timeline]
    simp [List.mem_filter]
  · rw [forgetAfter_timeline]
    exact List.filter_sublist _
  · rw [forgetBefore_timeline]
    exact List.filter_sublist _
  · intro l hl
    have hmem := List.mem_of_mem_getLast? hl
    rw [forgetAfter_timeline] at hmem
    have h2 := (List.mem_filter.mp hmem).2
    simpa using h2
  · intro f hf
    have hmem := List.mem_of_mem_head? hf
    rw [forgetBefore_timeline] at hmem
    have h2 := (List.mem_filter.mp hmem).2
    simpa using h2

/-- Witness for C3 on the concrete sample times 2, 3, 5, 7, 11 of the spec:
after `ForgetAfter 5` the last retained sample is the one at time 3, whose
time is less than 5. -/
theorem c3_truncation_boundary_witness :
    ((Segment.mk [zsmp 2, zsmp 3, zsmp 5, zsmp 7, zsmp 11] none).forgetAfter
        5).timeline.getLast? = some (zsmp 3)
    ∧ (zsmp 3).time < 5 :=
  ⟨by decide,
   (c3_truncation_boundary (Segment.mk [zsmp 2, zsmp 3, zsmp 5, zsmp 7, zsmp 11] none)
       5).2.2.2.2.1 (zsmp 3) (by decide)⟩

/-- C4: Ordering invariant.  Starting from a segment with a strictly
increasing timeline (and sane downsampling parameters), every sequence of
`Append` / `ForgetAfter` / `ForgetBefore` operations leaves the retained
samples strictly increasing in time, and no two samples share a time. -/
theorem c4_ordering_invariant (seg : Segment) (ops : List SegOp)
    (hok : paramsOK seg) (hs : sortedTimes seg.timeline) :
    sortedTimes (runOps seg ops).timeline
    ∧ ((runOps seg ops).timeline.map Sample.time).Nodup := by
  have hsr : sortedTimes (runOps seg ops).timeline := by
    induction ops generalizing seg with
    | nil => exact hs
    | cons op rest ih => exact ih _ (paramsOK_applySegOp hok op) (sorted_applySegOp hok hs op)
  refine ⟨hsr, ?_⟩
  have h2 : (runOps seg ops).timeline.Pairwise fun a b => a.time ≠ b.time :=
    hsr.imp fun hlt => ne_of_lt hlt
  exact List.pairwise_map.mpr h2

/-- Witness for C4: a run mixing appends and truncations on a concrete
segment keeps the timeline strictly sorted. -/
theorem c4_ordering_invariant_witness :
    sortedTimes (Segment.mk [zsmp 2, zsmp 3] none).timeline
    ∧ sortedTimes (runOps (Segment.mk [zsmp 2, zsmp 3] none)
        [SegOp.append (zsmp 5), SegOp.forgetAfter 3, SegOp.append (zsmp 4)]).timeline :=
  ⟨by decide,
   (c4_ordering_invariant (Segment.mk [zsmp 2, zsmp 3] none)
      [SegOp.append (zsmp 5), SegOp.forgetAfter 3, SegOp.append (zsmp 4)]
      (by intro ds h; cases h) (by decide)).1⟩

/-- C5: Dense-window bound.  Over any run of operations from a freshly
configured empty segment the dense window never holds more than
`max_dense_intervals + 1` samples, and the `Append` that brings the window to
exactly `max_dense_intervals + 1` samples compacts synchronously inside that
`Append` and resets the window to just the trailing endpoint sample, whether
or not the check passed. -/
theorem c5_dense_window_bound (p : DownsamplingParameters)
    (hm : 1 ≤ p.max_dense_intervals) (ops : List SegOp) :
    (runOps (configuredEmpty p) ops).denseSamples.length ≤ p.max_dense_intervals + 1
    ∧ (∀ (seg : Segment) (ds : DownsamplingState) (s : Sample),
        seg.downsampling = some ds →
        ds.dense_samples.length = ds.parameters.max_dense_intervals →
        (appendOk seg s).denseSamples = [s]) := by
  constructor
  · have hrun := @runOps_invariant (configuredEmpty p)
      (by intro ds h; cases h; exact hm) (by exact List.Pairwise.nil)
      (by intro ds h; cases h; simp) ops
    obtain ⟨hok, hsr, hb⟩ := hrun
    cases hd : (runOps (configuredEmpty p) ops).downsampling with
    | none => simp [Segment.denseSamples, hd]
    | some ds =>
        have h1 := hb ds hd
        have h2 : (runOps (configuredEmpty p) ops).denseSamples = ds.dense_samples := by
          simp [Segment.denseSamples, hd]
        rw [h2]
        have h3 : ds.parameters = p := by
          obtain ⟨d, hd2⟩ := paramsAre_runOps (paramsAre_configuredEmpty p) ops
          rw [hd] at hd2
          cases hd2
          rfl
        rw [h3] at h1
        omega
  · intro seg ds s hd hlen
    by_cases hchk : compactWindowCheck ds.parameters (ds.dense_samples ++ [s]) = true
    · rw [appendOk_pass hd s (by omega) hchk]
      simp [Segment.denseSamples]
    · rw [appendOk_fail hd s (by omega) (by simpa using hchk)]
      simp [Segment.denseSamples]

/-- Witness for C5: with `max_dense_intervals = 2`, after two appends the
dense window holds two samples (within the bound), and the third append
compacts and resets the window to the trailing endpoint. -/
theorem c5_dense_window_bound_witness :
    (runOps (configuredEmpty pTwo)
        [SegOp.append (zsmp 0), SegOp.append (zsmp 1)]).denseSamples.length
      ≤ pTwo.max_dense_intervals + 1
    ∧ (appendOk (runOps (configuredEmpty pTwo)
        [SegOp.append (zsmp 0), SegOp.append (zsmp 1)]) (zsmp 2)).denseSamples = [zsmp 2] :=
  ⟨(c5_dense_window_bound pTwo (by decide)
      [SegOp.append (zsmp 0), SegOp.append (zsmp 1)]).1,
   (c5_dense_window_bound pTwo (by decide) []).2
     (runOps (configuredEmpty pTwo) [SegOp.append (zsmp 0), SegOp.append (zsmp 1)])
     (DownsamplingState.mk pTwo [zsmp 0, zsmp 1]) (zsmp 2) (by decide) (by decide)⟩

/-- C6: Append error condition.  `Append` fails with `OutOfOrderError`
exactly when the new time is not strictly greater than the current last
stored time (in particular when a sample at that exact time already exists);
no other error is possible, and on success the new sample is the new last
element of the timeline. -/
theorem c6_append_out_of_order (seg : Segment) (s : Sample) :
    (seg.append s = Except.error SegmentError.outOfOrder
        ↔ ∃ l, seg.timeline.getLast? = some l ∧ s.time ≤ l.time)
    ∧ (∀ e, seg.append s = Except.error e → e = SegmentError.outOfOrder)
    ∧ (∀ seg', seg.append s = Except.ok seg' → seg'.timeline.getLast? = some s) := by
  refine ⟨append_error_iff seg s, ?_, ?_⟩
  · intro e he
    unfold Segment.append at he
    cases hl : seg.timeline.getLast? with
    | none => rw [hl] at he; cases he
    | some l =>
        rw [hl] at he
        by_cases hle : s.time ≤ l.time
        · simp [hle] at he
          simp [he]
        · simp [hle] at he
  · intro seg' hok
    rw [append_ok_inv hok]
    exact appendOk_getLast seg s

/-- Witness for C6: appending at time 3 to a segment ending at time 3 fails
with `OutOfOrderError`; appending at time 4 succeeds and becomes the last
sample. -/
theorem c6_append_out_of_order_witness :
    (Segment.mk [zsmp 2, zsmp 3] none).append (zsmp 3)
        = Except.error SegmentError.outOfOrder
    ∧ (appendOk (Segment.mk [zsmp 2, zsmp 3] none) (zsmp 4)).timeline.getLast?
        = some (zsmp 4) :=
  ⟨(c6_append_out_of_order (Segment.mk [zsmp 2, zsmp 3] none) (zsmp 3)).1.mpr
      ⟨zsmp 3, by decide, by decide⟩,
   (c6_append_out_of_order (Segment.mk [zsmp 2, zsmp 3] none) (zsmp 4)).2.2
      (appendOk (Segment.mk [zsmp 2, zsmp 3] none) (zsmp 4)) (by rfl)⟩

/-- C7: Evaluation range error.  On a non-empty segment with sorted timeline,
`EvaluatePosition` and `EvaluateVelocity` succeed exactly when the queried
time lies in the closed interval from the first to the last stored time, and
the only possible failure is `OutOfRangeError`. -/
theorem c7_evaluate_range (seg : Segment) (t : ℚ) (x : Sample) (rest : List Sample)
    (htl : seg.timeline = x :: rest) (hs : sortedTimes (x :: rest)) :
    ((∃ q, seg.evaluatePosition t = Except.ok q)
        ↔ (x.time ≤ t ∧ t ≤ (lastOf x rest).time))
    ∧ ((∃ q, seg.evaluateVelocity t = Except.ok q)
        ↔ (x.time ≤ t ∧ t ≤ (lastOf x rest).time))
    ∧ (∀ e, seg.evaluatePosition t = Except.error e → e = SegmentError.outOfRange)
    ∧ (∀ e, seg.evaluateVelocity t = Except.error e → e = SegmentError.outOfRange) := by
  unfold Segment.evaluatePosition Segment.evaluateVelocity
  rw [htl]
  refine ⟨evalPosAux_ok_iff hs t, ?_, fun e => evalPosAux_error, fun e => evalVelAux_error⟩
  rw [evalVelAux_isOk_eq_evalPosAux]
  exact evalPosAux_ok_iff hs t

/-- Witness for C7: on the segment with samples at times 2 and 3, evaluation
at 5/2 (inside the stored extent) succeeds. -/
theorem c7_evaluate_range_witness :
    ((zsmp 2).time ≤ (5 : ℚ) / 2 ∧ (5 : ℚ) / 2 ≤ (lastOf (zsmp 2) [zsmp 3]).time)
    ∧ (∃ q, (Segment.mk [zsmp 2, zsmp 3] none).evaluatePosition ((5 : ℚ) / 2)
        = Except.ok q) :=
  ⟨⟨by norm_num [zsmp], by norm_num [zsmp, lastOf]⟩,
   (c7_evaluate_range (Segment.mk [zsmp 2, zsmp 3] none) ((5 : ℚ) / 2) (zsmp 2) [zsmp 3]
      rfl (by decide)).1.mpr
     ⟨by norm_num [zsmp], by norm_num [zsmp, lastOf]⟩⟩

/-- C8: Interpolation exactness at knots.  Evaluating a segment with sorted
timeline exactly at the time of any stored sample returns that sample's
stored position and velocity exactly. -/
theorem c8_knot_exactness (seg : Segment) (s : Sample)
    (hs : sortedTimes seg.timeline) (hmem : s ∈ seg.timeline) :
    seg.evaluatePosition s.time = Except.ok s.position
    ∧ seg.evaluateVelocity s.time = Except.ok s.velocity :=
  ⟨evalPosAux_knot hs hmem, evalVelAux_knot hs hmem⟩

/-- Witness for C8 on a concrete three-sample segment with nonzero data:
evaluation at the middle knot returns the stored values exactly. -/
theorem c8_knot_exactness_witness :
    sortedTimes (Segment.mk [Sample.mk 0 (1, 2, 3) (4, 5, 6),
        Sample.mk 1 (7, 8, 9) (1, 1, 1), Sample.mk 2 (0, 1, 0) (2, 2, 2)] none).timeline
    ∧ (Segment.mk [Sample.mk 0 (1, 2, 3) (4, 5, 6), Sample.mk 1 (7, 8, 9) (1, 1, 1),
        Sample.mk 2 (0, 1, 0) (2, 2, 2)] none).evaluatePosition
          (Sample.mk 1 (7, 8, 9) (1, 1, 1)).time = Except.ok (7, 8, 9)
    ∧ (Segment.mk [Sample.mk 0 (1, 2, 3) (4, 5, 6), Sample.mk 1 (7, 8, 9) (1, 1, 1),
        Sample.mk 2 (0, 1, 0) (2, 2, 2)] none).evaluateVelocity
          (Sample.mk 1 (7, 8, 9) (1, 1, 1)).time = Except.ok (1, 1, 1) :=
  ⟨by decide,
   (c8_knot_exactness _ (Sample.mk 1 (7, 8, 9) (1, 1, 1)) (by decide) (by decide)).1,
   (c8_knot_exactness _ (Sample.mk 1 (7, 8, 9) (1, 1, 1)) (by decide) (by decide)).2⟩

/-- C9: Error atomicity.  `Append` either succeeds, yielding the canonical
successor state, or fails with the typed `OutOfOrderError`, in which case the
segment state observed by the rest of the run is exactly the prior state; the
truncation operations always complete, acting as pure functions of the prior
state. -/
theorem c9_error_atomicity (seg : Segment) (s : Sample) (t : ℚ) :
    ((∃ seg', seg.append s = Except.ok seg' ∧ appendTotal seg s = seg')
      ∨ (seg.append s = Except.error SegmentError.outOfOrder ∧ appendTotal seg s = seg))
    ∧ (∀ e, seg.append s = Except.error e → runOps seg [SegOp.append s] = seg)
    ∧ runOps seg [SegOp.forgetAfter t] = seg.forgetAfter t
    ∧ runOps seg [SegOp.forgetBefore t] = seg.forgetBefore t := by
  refine ⟨?_, ?_, rfl, rfl⟩
  · cases ha : seg.append s with
    | ok seg' =>
        refine Or.inl ⟨seg', rfl, ?_⟩
        unfold appendTotal
        rw [ha]
    | error e =>
        have he : e = SegmentError.outOfOrder := by
          unfold Segment.append at ha
          cases hl : seg.timeline.getLast? with
          | none => rw [hl] at ha; cases ha
          | some l =>
              rw [hl] at ha
              by_cases hle : s.time ≤ l.time
              · simp [hle] at ha
                simp [ha]
              · simp [hle] at ha
        subst he
        refine Or.inr ⟨rfl, ?_⟩
        unfold appendTotal
        rw [ha]
  · intro e he
    show appendTotal seg s = seg
    unfold appendTotal
    rw [he]

/-- Witness for C9: an out-of-order append on a concrete segment leaves the
run state unchanged. -/
theorem c9_error_atomicity_witness :
    runOps (Segment.mk [zsmp 2, zsmp 3] none) [SegOp.append (zsmp 3)]
      = Segment.mk [zsmp 2, zsmp 3] none :=
  (c9_error_atomicity (Segment.mk [zsmp 2, zsmp 3] none) (zsmp 3) 0).2.1
    SegmentError.outOfOrder (by rfl)

theorem head?_append_cons (l1 : List Sample) (a : Sample) (l2 : List Sample) :
    (l1 ++ a :: l2).head? = some (l1.head?.getD a) := by
  cases l1 <;> rfl

theorem appendOk_head {seg : Segment} (hok : paramsOK seg) (s : Sample) :
    (appendOk seg s).timeline.head? = some (seg.timeline.head?.getD s) := by
  cases h : seg.downsampling with
  | none =>
      rw [appendOk_none h]
      have h1 : Segment.timeline (Segment.mk (seg.front ++ [s]) none)
          = seg.front ++ s :: [] := by
        simp [Segment.timeline, Segment.denseSamples]
      rw [h1, head?_append_cons]
      have h2 : seg.timeline = seg.front := by
        simp [Segment.timeline, Segment.denseSamples, h]
      rw [h2]
  | some ds =>
    have hm := hok ds h
    have htl : seg.timeline = seg.front ++ ds.dense_samples := by
      simp [Segment.timeline, Segment.denseSamples, h]
    by_cases hlen : ds.dense_samples.length + 1 = ds.parameters.max_dense_intervals + 1
    · have hne : ds.dense_samples ≠ [] := by
        intro hnil
        rw [hnil] at hlen
        simp at hlen
        omega
      obtain ⟨d0, dtl, hd⟩ := List.exists_cons_of_ne_nil hne
      by_cases hchk : compactWindowCheck ds.parameters (ds.dense_samples ++ [s]) = true
      · rw [appendOk_pass h s hlen hchk]
        have h1 : Segment.timeline (Segment.mk
            (seg.front ++ (ds.dense_samples ++ [s]).take 1)
            (some (DownsamplingState.mk ds.parameters [s])))
            = (seg.front ++ [d0]) ++ s :: [] := by
          simp [Segment.timeline, Segment.denseSamples, hd]
        rw [h1, head?_append_cons, htl, hd]
        cases seg.front <;> rfl
      · rw [appendOk_fail h s hlen (by simpa using hchk)]
        have h1 : Segment.timeline (Segment.mk (seg.front ++ ds.dense_samples)
            (some (DownsamplingState.mk ds.parameters [s])))
            = (seg.front ++ ds.dense_samples) ++ s :: [] := by
          simp [Segment.timeline, Segment.denseSamples]
        rw [h1, head?_append_cons, htl]
    · rw [appendOk_noTrigger h s hlen]
      have h1 : Segment.timeline (Segment.mk seg.front
          (some (DownsamplingState.mk ds.parameters (ds.dense_samples ++ [s]))))
          = (seg.front ++ ds.dense_samples) ++ s :: [] := by
        simp [Segment.timeline, Segment.denseSamples]
      rw [h1, head?_append_cons, htl]

theorem foldl_appendOk_head {seg : Segment} (hok : paramsOK seg) (ss : List Sample) :
    (ss.foldl appendOk seg).timeline.head? = (seg.timeline ++ ss).head? := by
  induction ss generalizing seg with
  | nil => simp
  | cons b rest ih =>
      have h1 := ih (paramsOK_appendOk hok b)
      show (rest.foldl appendOk (appendOk seg b)).timeline.head? = _
      rw [h1]
      have h2 := appendOk_head hok b
      rw [head?_append_cons]
      cases hsh : (appendOk seg b).timeline with
      | nil => rw [hsh] at h2; cases h2
      | cons y ytl =>
          rw [hsh] at h2
          simp only [List.cons_append, List.head?_cons] at h2 ⊢
          rw [h2]

theorem foldl_appendOk_getLast {seg : Segment} (hok : paramsOK seg) (ss : List Sample) :
    (ss.foldl appendOk seg).timeline.getLast? = (seg.timeline ++ ss).getLast? := by
  induction ss generalizing seg with
  | nil => simp
  | cons b rest ih =>
      have h1 := ih (paramsOK_appendOk hok b)
      show (rest.foldl appendOk (appendOk seg b)).timeline.getLast? = _
      rw [h1]
      cases rest with
      | nil =>
          simp only [List.append_nil]
          rw [appendOk_getLast]
          rw [show seg.timeline ++ [b] = seg.timeline ++ [b] from rfl]
          rw [List.getLast?_concat]
      | cons r rtl =>
          have h3 : ∀ l : List Sample, (l ++ r :: rtl).getLast? = (r :: rtl).getLast? := by
            intro l
            simp only [List.getLast?_append]
            cases hg : (r :: rtl).getLast? with
            | none => simp [List.getLast?_cons] at hg
            | some y => simp
          rw [h3]
          rw [show seg.timeline ++ b :: r :: rtl = (seg.timeline ++ [b]) ++ r :: rtl by simp]
          rw [h3]

/-- C10: Endpoints survive compaction.  For any successful run of appends
with strictly increasing times into a freshly configured segment, the first
and last stored samples are exactly the first and last appended samples —
compaction never discards either endpoint — and consequently interpolated
evaluation succeeds at the time of every originally appended sample. -/
theorem c10_endpoints_survive (p : DownsamplingParameters)
    (hm : 1 ≤ p.max_dense_intervals) (as : List Sample) (hs : sortedTimes as) :
    (runAppends (configuredEmpty p) as).timeline.head? = as.head?
    ∧ (runAppends (configuredEmpty p) as).timeline.getLast? = as.getLast?
    ∧ ∀ s ∈ as,
        (∃ q, (runAppends (configuredEmpty p) as).evaluatePosition s.time = Except.ok q)
        ∧ (∃ q, (runAppends (configuredEmpty p) as).evaluateVelocity s.time
            = Except.ok q) := by
  have hok : paramsOK (configuredEmpty p) := by
    intro ds h
    cases h
    exact hm
  have hs0 : sortedTimes ((configuredEmpty p).timeline ++ as) := by
    rw [configuredEmpty_timeline]
    simpa using hs
  have hbr := runAppends_eq_foldl_appendOk hok hs0
  rw [hbr]
  have hhead := foldl_appendOk_head hok as
  have hlast := foldl_appendOk_getLast hok as
  rw [configuredEmpty_timeline] at hhead hlast
  simp only [List.nil_append] at hhead hlast
  refine ⟨hhead, hlast, ?_⟩
  intro s hmem
  cases as with
  | nil => cases hmem
  | cons a0 atl =>
    have hsF : sortedTimes ((a0 :: atl).foldl appendOk (configuredEmpty p)).timeline :=
      sorted_timeline_foldl hok hs0
    cases htlF : ((a0 :: atl).foldl appendOk (configuredEmpty p)).timeline with
    | nil =>
        rw [htlF] at hhead
        cases hhead
    | cons x restF =>
      rw [htlF] at hhead hlast hsF
      have hx : x = a0 := by simpa using hhead
      subst hx
      have hlastF : lastOf x restF = lastOf x atl := by
        rw [getLast?_cons_eq, getLast?_cons_eq] at hlast
        simpa using hlast
      have hlow : x.time ≤ s.time := by
        rcases List.mem_cons.mp hmem with hsa | hsatl
        · rw [hsa]
        · exact le_of_lt ((List.pairwise_cons.mp hs).1 s hsatl)
      have hhigh : s.time ≤ (lastOf x restF).time := by
        rw [hlastF]
        exact time_le_getLast hs hmem (getLast?_cons_eq x atl)
      have hiff := evalPosAux_ok_iff hsF s.time
      have hiffv := evalVelAux_isOk_eq_evalPosAux (x :: restF) s.time
      constructor
      · show ∃ q, evalPosAux ((x :: atl).foldl appendOk (configuredEmpty p)).timeline
            s.time = Except.ok q
        rw [htlF]
        exact hiff.mpr ⟨hlow, hhigh⟩
      · show ∃ q, evalVelAux ((x :: atl).foldl appendOk (configuredEmpty p)).timeline
            s.time = Except.ok q
        rw [htlF]
        exact hiffv.mpr (hiff.mpr ⟨hlow, hhigh⟩)

/-- Witness for C10: a run of five zero-motion samples with window size three
keeps the samples at times 0 and 4 as the stored extremities. -/
theorem c10_endpoints_survive_witness :
    sortedTimes [zsmp 0, zsmp 1, zsmp 2, zsmp 3, zsmp 4]
    ∧ (runAppends (configuredEmpty pTwo)
        [zsmp 0, zsmp 1, zsmp 2, zsmp 3, zsmp 4]).timeline.head? = some (zsmp 0)
    ∧ (runAppends (configuredEmpty pTwo)
        [zsmp 0, zsmp 1, zsmp 2, zsmp 3, zsmp 4]).timeline.getLast? = some (zsmp 4) :=
  ⟨by decide,
   (c10_endpoints_survive pTwo (by decide) [zsmp 0, zsmp 1, zsmp 2, zsmp 3, zsmp 4]
      (by decide)).1,
   (c10_endpoints_survive pTwo (by decide) [zsmp 0, zsmp 1, zsmp 2, zsmp 3, zsmp 4]
      (by decide)).2.1⟩

/-- Counterexample to C2 as stated: the compaction check bounds only the
position reconstruction error.  In this run the interior sample at time 1 has
velocity (100, 0, 0); the window is nevertheless compacted (the sample is
discarded from the Timeline) because its position is reconstructed exactly,
and the reconstructed velocity differs from the stored velocity by far more
than the tolerance of 1. -/
theorem c2_tolerance_counterexample :
    ((runAppends (configuredEmpty pTwo)
        [zsmp 0, Sample.mk 1 (0, 0, 0) (100, 0, 0), zsmp 2]).timeline
      = [zsmp 0, zsmp 2])
    ∧ (runAppends (configuredEmpty pTwo)
        [zsmp 0, Sample.mk 1 (0, 0, 0) (100, 0, 0), zsmp 2]).evaluateVelocity 1
        = Except.ok (0, 0, 0)
    ∧ ¬ normSq (vsub (0, 0, 0) (Sample.mk 1 (0, 0, 0) (100, 0, 0)).velocity)
        ≤ pTwo.tolerance ^ 2 :=
  ⟨by with_unfolding_all decide, by with_unfolding_all rfl,
   by with_unfolding_all decide⟩

/-- C2 (amended): Tolerance guarantee for positions.  Over any successful run
of appends into a freshly configured segment: every appended sample is either
retained or its position is reconstructed by the post-compaction segment's
interpolant within the tolerance; a dense window is compacted exactly when
every interior sample's position (not velocity) is reconstructed within the
tolerance by the Hermite fit through the window's two endpoint samples; and
on a failed check every sample of the window is retained in the Timeline. -/
theorem c2_tolerance_amended (p : DownsamplingParameters)
    (hm : 1 ≤ p.max_dense_intervals) (as : List Sample) (hs : sortedTimes as) :
    (∀ s ∈ as,
        s ∈ (runAppends (configuredEmpty p) as).timeline
        ∨ ∃ q, (runAppends (configuredEmpty p) as).evaluatePosition s.time = Except.ok q
            ∧ normSq (vsub q s.position) ≤ p.tolerance ^ 2)
    ∧ (∀ (pp : DownsamplingParameters) (e0 : Sample) (mid : List Sample) (e1 : Sample),
        compactWindowCheck pp (e0 :: mid ++ [e1]) = true
          ↔ ∀ x ∈ mid, normSq (vsub (hermitePosition e0 e1 x.time) x.position)
              ≤ pp.tolerance ^ 2)
    ∧ (∀ (seg : Segment) (ds : DownsamplingState) (s : Sample),
        seg.downsampling = some ds →
        ds.dense_samples.length + 1 = ds.parameters.max_dense_intervals + 1 →
        compactWindowCheck ds.parameters (ds.dense_samples ++ [s]) = false →
        (appendOk seg s).timeline = seg.timeline ++ [s]) := by
  have hok : paramsOK (configuredEmpty p) := by
    intro ds h
    cases h
    exact hm
  have hs0 : sortedTimes ((configuredEmpty p).timeline ++ as) := by
    rw [configuredEmpty_timeline]
    simpa using hs
  refine ⟨?_, compactWindowCheck_iff, ?_⟩
  · intro s hmem
    rw [runAppends_eq_foldl_appendOk hok hs0]
    have hcov := coverage_main hm as (configuredEmpty p) (paramsAre_configuredEmpty p)
      hs0 s hmem
    cases hcov with
    | inl hin => exact Or.inl hin
    | inr hcov =>
        refine Or.inr ?_
        have hctl := covered_stable_timeline hcov
        obtain ⟨l1, e0, e1, l2, heq, h0, h1, hb⟩ := hctl
        have hsF : sortedTimes ((as.foldl appendOk (configuredEmpty p)).timeline) :=
          sorted_timeline_foldl hok hs0
        refine ⟨hermitePosition e0 e1 s.time, ?_, hb⟩
        show evalPosAux (as.foldl appendOk (configuredEmpty p)).timeline s.time = _
        rw [heq]
        rw [heq] at hsF
        exact evalPosAux_adjacent hsF h0 (le_of_lt h1)
  · intro seg ds s hd hlen hchk
    rw [appendOk_fail hd s hlen hchk]
    simp [Segment.timeline, Segment.denseSamples, hd]

/-- Witness for the amended C2: a concrete two-sample run in which the first
appended sample is retained. -/
theorem c2_tolerance_amended_witness :
    (1 ≤ pTwo.max_dense_intervals ∧ sortedTimes [zsmp 0, zsmp 1])
    ∧ (zsmp 0 ∈ (runAppends (configuredEmpty pTwo) [zsmp 0, zsmp 1]).timeline
        ∨ ∃ q, (runAppends (configuredEmpty pTwo) [zsmp 0, zsmp 1]).evaluatePosition
              (zsmp 0).time = Except.ok q
            ∧ normSq (vsub q (zsmp 0).position) ≤ pTwo.tolerance ^ 2) :=
  ⟨⟨by decide, by decide⟩,
   (c2_tolerance_amended pTwo (by decide) [zsmp 0, zsmp 1] (by decide)).1
     (zsmp 0) (by decide)⟩

/-- Counterexample to C1 as stated: cutting at the time of a sample that was
discarded by compaction does not restore the uninterrupted result.  With
window size three and tolerance one, the uninterrupted run over times
0, 1, 2, 3, 4 retains the times 0, 2, 4; forgetting at time 1 (the time of a
discarded sample) and re-appending the samples from time 1 on yields the
retained times 0, 1, 3, 4 — a different sample count and different times. -/
theorem c1_restart_counterexample :
    ((runAppends (configuredEmpty pTwo) [zsmp 0, zsmp 1, zsmp 2, zsmp 3, zsmp 4]).timeline.map
        Sample.time = [0, 2, 4])
    ∧ ((runAppends ((runAppends (configuredEmpty pTwo)
          [zsmp 0, zsmp 1, zsmp 2, zsmp 3, zsmp 4]).forgetAfter (zsmp 1).time)
          [zsmp 1, zsmp 2, zsmp 3, zsmp 4]).timeline.map Sample.time = [0, 1, 3, 4])
    ∧ runAppends ((runAppends (configuredEmpty pTwo)
          [zsmp 0, zsmp 1, zsmp 2, zsmp 3, zsmp 4]).forgetAfter (zsmp 1).time)
          [zsmp 1, zsmp 2, zsmp 3, zsmp 4]
        ≠ runAppends (configuredEmpty pTwo) [zsmp 0, zsmp 1, zsmp 2, zsmp 3, zsmp 4] :=
  ⟨by with_unfolding_all decide, by with_unfolding_all decide,
   by with_unfolding_all decide⟩

/-- C1 (amended): Restart idempotence at retained cut times for runs whose
compaction checks all pass.  If a segment is built by appending samples with
strictly increasing times, every compaction attempt of the run passes its
check, and the cut sample `c` is retained in the built segment, then
`ForgetAfter` at the time of `c` followed by re-appending `c` and the
remaining samples reproduces the uninterrupted segment exactly — Timeline and
dense window state alike.  (The counterexample shows the original claim fails
for a cut at a discarded sample's time; a cut inside a window whose check
failed is likewise not restartable, because the window phase is not
recoverable from the retained Timeline.) -/
theorem c1_restart_idempotence_amended (p : DownsamplingParameters)
    (hm : 1 ≤ p.max_dense_intervals) (pre post : List Sample) (c : Sample)
    (hs : sortedTimes (pre ++ c :: post))
    (hp : allPass (configuredEmpty p) (pre ++ c :: post) = true)
    (hmem : c ∈ (runAppends (configuredEmpty p) (pre ++ c :: post)).timeline) :
    runAppends ((runAppends (configuredEmpty p) (pre ++ c :: post)).forgetAfter c.time)
        (c :: post)
      = runAppends (configuredEmpty p) (pre ++ c :: post) := by
  have hok : paramsOK (configuredEmpty p) := by
    intro ds h
    cases h
    exact hm
  have hs0 : sortedTimes ((configuredEmpty p).timeline ++ (pre ++ c :: post)) := by
    rw [configuredEmpty_timeline]
    simpa using hs
  have hbr := runAppends_eq_foldl_appendOk hok hs0
  rw [hbr] at hmem ⊢
  have hcore := restart_core p hm pre c post hs hp hmem
  have hsF : sortedTimes ((pre ++ c :: post).foldl appendOk (configuredEmpty p)).timeline :=
    sorted_timeline_foldl hok hs0
  have hforget_tl := forgetAfter_timeline
    ((pre ++ c :: post).foldl appendOk (configuredEmpty p)) c.time
  have hscp : sortedTimes (c :: post) := by
    have hsub : List.Sublist (c :: post) (pre ++ c :: post) :=
      List.sublist_append_right pre (c :: post)
    exact hs.sublist hsub
  have hsfc : sortedTimes
      ((((pre ++ c :: post).foldl appendOk (configuredEmpty p)).forgetAfter
        c.time).timeline ++ c :: post) := by
    refine List.pairwise_append.mpr ⟨?_, hscp, ?_⟩
    · rw [hforget_tl]
      exact hsF.sublist (List.filter_sublist _)
    · intro x hx y hy
      rw [hforget_tl] at hx
      have hxlt : x.time < c.time := by
        have h2 := (List.mem_filter.mp hx).2
        simpa using h2
      rcases List.mem_cons.mp hy with hyc | hyp
      · rw [hyc]
        exact hxlt
      · have hcy : c.time < y.time := by
          have h7 := (List.pairwise_cons.mp hscp).1 y hyp
          exact h7
        exact lt_trans hxlt hcy
  have hbr2 := @runAppends_eq_foldl_appendOk
    (((pre ++ c :: post).foldl appendOk (configuredEmpty p)).forgetAfter c.time)
    (paramsOK_forgetAfter (fun ds h => by
      obtain ⟨d, hd⟩ := paramsAre_foldl (paramsAre_configuredEmpty p) (pre ++ c :: post)
      rw [hd] at h
      cases h
      exact hm) c.time)
    (c :: post)
    hsfc
  rw [hbr2]
  show ((c :: post).foldl appendOk _) = _
  rw [List.foldl_cons, hcore, ← List.foldl_append]
  rw [show (pre ++ [c]) ++ post = pre ++ c :: post by simp]

/-- Witness for the amended C1: restarting the five-sample all-pass run at
the retained sample with time 2 reproduces the uninterrupted segment. -/
theorem c1_restart_idempotence_amended_witness :
    (sortedTimes ([zsmp 0, zsmp 1] ++ zsmp 2 :: [zsmp 3, zsmp 4])
      ∧ allPass (configuredEmpty pTwo) ([zsmp 0, zsmp 1] ++ zsmp 2 :: [zsmp 3, zsmp 4]) = true
      ∧ zsmp 2 ∈ (runAppends (configuredEmpty pTwo)
          ([zsmp 0, zsmp 1] ++ zsmp 2 :: [zsmp 3, zsmp 4])).timeline)
    ∧ runAppends ((runAppends (configuredEmpty pTwo)
          ([zsmp 0, zsmp 1] ++ zsmp 2 :: [zsmp 3, zsmp 4])).forgetAfter (zsmp 2).time)
          (zsmp 2 :: [zsmp 3, zsmp 4])
        = runAppends (configuredEmpty pTwo) ([zsmp 0, zsmp 1] ++ zsmp 2 :: [zsmp 3, zsmp 4]) :=
  ⟨⟨by with_unfolding_all decide, by with_unfolding_all decide,
    by with_unfolding_all decide⟩,
   c1_restart_idempotence_amended pTwo (by decide) [zsmp 0, zsmp 1] [zsmp 3, zsmp 4] (zsmp 2)
     (by with_unfolding_all decide) (by with_unfolding_all decide)
     (by with_unfolding_all decide)⟩
